import Mathlib

/-!
# Verification of the gosieve streaming prime sieve

Shallow embedding of the concurrent Eratosthenes sieve (sieve2.go /
sieve3.go and the two unnamed variants).  Go channels produced by `spin`
are deterministic value streams; we embed the generator goroutine's state
(`n`, `k`, `i`) and read values by indexing.  The heap-merge goroutine,
the sieve control loop and the whole feedback pipeline are embedded as
fuelled state machines returning `Option` (with `none` for fuel
exhaustion or a blocked read), so that every definition is executable and
kernel-computable on concrete inputs.
-/

namespace Gosieve

/-- Embedding of `var wheel = []int{...}` from sieve2.go / sieve3.go:
the 48 increments that step through the integers coprime to 210. -/
def wheel : List Nat :=
  [4, 2, 4, 6, 2, 6, 4, 2, 4, 6, 6, 2, 6, 4, 2, 6, 4, 6, 8, 4, 2, 4, 2, 4, 8,
   6, 4, 6, 2, 4, 6, 2, 6, 6, 4, 2, 4, 6, 2, 6, 4, 2, 4, 2, 10, 2, 10, 2]

/-- Go's `wheel[i]` (only ever evaluated at `i < 48` in the source). -/
def wheelGet (i : Nat) : Nat := wheel.getD i 0

/-- State of a `spin(n, k, i, bufsize)` goroutine: the next value `n` to
send, the multiplier `k`, and the wheel cursor `i`.  The channel buffer
size only affects scheduling, not the value stream, so it is dropped. -/
structure Gen where
  n : Nat
  k : Nat
  i : Nat
deriving DecidableEq, Repr

/-- One send of the `spin` goroutine: emit `n`, then `n += k * wheel[i]`
and advance the cursor (the Go loop resets `i` to 0 on reaching 48; a
cursor that starts at or above 48 is reset before being used, exactly as
the `for ; i < 48; i++ { ... }; i = 0` structure does). -/
def Gen.next (g : Gen) : Nat × Gen :=
  let j := if g.i < 48 then g.i else 0
  (g.n, ⟨g.n + g.k * wheelGet j, g.k, j + 1⟩)

/-- The generator state after one send. -/
def Gen.step (g : Gen) : Gen := g.next.2

/-- The `t`-th value received from a `spin` channel (0-indexed). -/
def Gen.nth (g : Gen) : Nat → Nat
  | 0 => g.n
  | t + 1 => g.step.nth t

/-- The first `m` values received from a `spin` channel. -/
def Gen.list (g : Gen) : Nat → List Nat
  | 0 => []
  | m + 1 => g.n :: g.step.list m

/-- Embedding of `spin(n, k, i, bufsize)`: the initial generator state. -/
def spin (n k i : Nat) : Gen := ⟨n, k, i⟩

/-- Embedding of `coprime2357()` (called `Candidates()` in the first
unnamed variant): `spin(13, 1, 0, _)`. -/
def coprime2357 : Gen := spin 13 1 0

/-- Embedding of the Go map `wheelpos`, mapping `p % 210` to a wheel
position.  A missing key yields Go's zero value `0`, exactly as a Go map
read does. -/
def wheelpos (r : Nat) : Nat :=
  match r with
  | 1 => 46 | 11 => 47 | 13 => 0 | 17 => 1 | 19 => 2 | 23 => 3 | 29 => 4
  | 31 => 5 | 37 => 6 | 41 => 7 | 43 => 8 | 47 => 9 | 53 => 10 | 59 => 11
  | 61 => 12 | 67 => 13 | 71 => 14 | 73 => 15 | 79 => 16 | 83 => 17
  | 89 => 18 | 97 => 19 | 101 => 20 | 103 => 21 | 107 => 22 | 109 => 23
  | 113 => 24 | 121 => 25 | 127 => 26 | 131 => 27 | 137 => 28 | 139 => 29
  | 143 => 30 | 149 => 31 | 151 => 32 | 157 => 33 | 163 => 34 | 167 => 35
  | 169 => 36 | 173 => 37 | 179 => 38 | 181 => 39 | 187 => 40 | 191 => 41
  | 193 => 42 | 197 => 43 | 199 => 44 | 209 => 45
  | _ => 0

/-- Embedding of `multiples(p)`: `spin(p*p, p, wheelpos[p%210], _)`. -/
def multiples (p : Nat) : Gen := spin (p * p) p (wheelpos (p % 210))

/-- Embedding of `PeekCh`: a cached head plus the channel behind it. -/
structure PeekCh where
  head : Nat
  ch : Gen
deriving DecidableEq, Repr

/-- Embedding of `heap.Pop` on `PeekChHeap`: extract an entry with the
minimal `head` (Go's `container/heap` with `Less` comparing heads; ties
are broken arbitrarily there, the model takes the first minimal entry),
returning it together with the remaining entries.  `none` on an empty
heap (where the Go code would panic). -/
def heapPop : List PeekCh → Option (PeekCh × List PeekCh)
  | [] => none
  | e :: rest =>
    match heapPop rest with
    | none => some (e, [])
    | some (m, rest') =>
      if e.head ≤ m.head then some (e, rest) else some (m, e :: rest')

/-- State of the `mergeMultiples` goroutine between two receives on its
`primes` channel: the heap of peekable multiple channels, and `min`. -/
structure MState where
  heap : List PeekCh
  mn : Nat
deriving DecidableEq, Repr

/-- Embedding of the state at `h := NewPeekChHeap(); min := 143`. -/
def mergeInit : MState := ⟨[], 143⟩

/-- Embedding of `for min < n { out <- min; mch := heap.Pop(h); min =
mch.head; heap.Push(h, &PeekCh{<-mch.ch, mch.ch}) }`.  Returns the
values sent on `out` (reversed onto `acc`) and the state afterwards. -/
def mergeEmitLoop : Nat → Nat → MState → List Nat → Option (List Nat × MState)
  | 0, _, _, _ => none
  | fuel + 1, h, s, acc =>
    if s.mn < h then
      match heapPop s.heap with
      | none => none
      | some (m, rest) =>
        mergeEmitLoop fuel h ⟨⟨m.ch.next.1, m.ch.next.2⟩ :: rest, m.head⟩
          (s.mn :: acc)
    else
      some (acc, s)

/-- Embedding of `for min == n { mch := heap.Pop(h); min = mch.head;
heap.Push(h, &PeekCh{<-mch.ch, mch.ch}) }`.  Also counts how many times
the loop body ran (nothing is sent on `out` here). -/
def mergeDedupLoop : Nat → Nat → MState → Option (MState × Nat)
  | 0, _, _ => none
  | fuel + 1, h, s =>
    if s.mn = h then
      match heapPop s.heap with
      | none => none
      | some (m, rest) =>
        match mergeDedupLoop fuel h ⟨⟨m.ch.next.1, m.ch.next.2⟩ :: rest, m.head⟩ with
        | none => none
        | some (s', c) => some (s', c + 1)
    else
      some (s, 0)

/-- One iteration of the outer `mergeMultiples` loop for a received
prime `p`: open `multiples(p)`, read its head, run both inner loops,
send the head, and push the advanced new channel.  Returns the values
sent on `out` in order, the new state, and the number of times the
`min == n` dedup body ran. -/
def mergeIter (fuel p : Nat) (s : MState) : Option (List Nat × MState × Nat) :=
  let g := multiples p
  let h := g.next.1
  let g1 := g.next.2
  match mergeEmitLoop fuel h s [] with
  | none => none
  | some (acc, s1) =>
    match mergeDedupLoop fuel h s1 with
    | none => none
    | some (s2, c) =>
      some (acc.reverse ++ [h], ⟨⟨g1.next.1, g1.next.2⟩ :: s2.heap, s2.mn⟩, c)

/-- Embedding of the `mergeMultiples` goroutine run on a finite prefix
`ps` of its `primes` channel: the composites sent on `out`, the final
state, and the total number of `min == n` dedup-body executions. -/
def mergeRun (fuel : Nat) : List Nat → MState → Option (List Nat × MState × Nat)
  | [], s => some ([], s, 0)
  | p :: ps, s =>
    match mergeIter fuel p s with
    | none => none
    | some (o1, s1, c1) =>
      match mergeRun fuel ps s1 with
      | none => none
      | some (o2, s2, c2) => some (o1 ++ o2, s2, c1 + c2)

/-- The composite stream `mergeMultiples` produces after receiving the
primes `ps`, starting from `NewPeekChHeap(); min := 143`. -/
def mergeOut (fuel : Nat) (ps : List Nat) : Option (List Nat) :=
  (mergeRun fuel ps mergeInit).map (fun r => r.1)

/-- Total count of `min == n` dedup-body executions over a run. -/
def mergeDedupCount (fuel : Nat) (ps : List Nat) : Option Nat :=
  (mergeRun fuel ps mergeInit).map (fun r => r.2.2)

/-- Embedding of the inner sieve loop of `Primes` / `Sieve`, for one
received composite `c`: `for p < c { primes <- p; out <- p; p =
<-candidates }; if p == c { p = <-candidates }`.  The state is the
current candidate `p` together with the candidate generator `g` holding
the not-yet-read candidates.  Returns the primes emitted (sent to both
`primes` and `out`, in order) and the new candidate state. -/
def sieveInner : Nat → Nat → Gen → Nat → Option (List Nat × Nat × Gen)
  | 0, _, _, _ => none
  | fuel + 1, p, g, c =>
    if p < c then
      match sieveInner fuel g.next.1 g.next.2 c with
      | none => none
      | some (os, p', g') => some (p :: os, p', g')
    else if p = c then
      some ([], g.next.1, g.next.2)
    else
      some ([], p, g)

/-- The sieve loop run over a finite prefix `cs` of the composites
channel: concatenated primes emitted, and the final candidate state. -/
def sieveRun (fuel : Nat) : List Nat → Nat → Gen → Option (List Nat × Nat × Gen)
  | [], p, g => some ([], p, g)
  | c :: cs, p, g =>
    match sieveInner fuel p g c with
    | none => none
    | some (os, p', g') =>
      match sieveRun fuel cs p' g' with
      | none => none
      | some (os', p'', g'') => some (os ++ os', p'', g'')

/-- Adjacent-duplicate removal on a composite stream (the composites
channel is non-decreasing, so repeated deliveries are adjacent). -/
def dedupAdjFrom (prev : Nat) : List Nat → List Nat
  | [] => []
  | b :: t => if b = prev then dedupAdjFrom prev t else b :: dedupAdjFrom b t

/-- Remove adjacent duplicate values from a list. -/
def dedupAdj : List Nat → List Nat
  | [] => []
  | a :: t => a :: dedupAdjFrom a t

/-! ## Wheel-layer theory

The residue classes mod 210 traversed by the wheel, and the resulting
enumeration properties of `spin` streams. -/

/-- Residue mod 210 of the walk value at wheel cursor `i`: the integers
coprime to 210 from 13 up, reduced mod 210 (so cursor 46 carries residue
1 = 211 mod 210 and cursor 47 carries residue 11 = 221 mod 210). -/
def wresL : List Nat :=
  [13, 17, 19, 23, 29, 31, 37, 41, 43, 47, 53, 59, 61, 67, 71, 73, 79, 83,
   89, 97, 101, 103, 107, 109, 113, 121, 127, 131, 137, 139, 143, 149, 151,
   157, 163, 167, 169, 173, 179, 181, 187, 191, 193, 197, 199, 209, 1, 11]

/-- Residue carried by wheel cursor `i` (cyclically). -/
def wres (i : Nat) : Nat := wresL.getD (i % 48) 0

/-- A walk value `v` at cursor `i` is in phase with the wheel.  Cursors
reachable from the source's initializations stay in `[0, 48]`. -/
def Aligned (v i : Nat) : Prop := v % 210 = wres i ∧ i ≤ 48

/-- The normalized cursor the Go loop actually indexes `wheel` with. -/
def cnorm (i : Nat) : Nat := if i < 48 then i else 0

theorem wheelGet_ge_two : ∀ i < 48, 2 ≤ wheelGet i := by decide

theorem wheelGet_le_ten : ∀ i < 48, wheelGet i ≤ 10 := by decide

theorem wres_step : ∀ i < 48, (wres i + wheelGet i) % 210 = wres (i + 1) := by
  decide

theorem wres_coprime : ∀ i < 48, Nat.Coprime (wres i) 210 := by decide

set_option maxRecDepth 4000 in
theorem wres_no_skip :
    ∀ i < 48, ∀ d < wheelGet i, 0 < d →
      ¬ Nat.Coprime ((wres i + d) % 210) 210 := by decide

set_option maxRecDepth 4000 in
theorem wheelpos_wres :
    ∀ r < 210, Nat.Coprime r 210 → wheelpos r < 48 ∧ wres (wheelpos r) = r := by
  decide

/-- Coprimality to 210 only depends on the residue mod 210. -/
theorem coprime210_mod (m : Nat) :
    Nat.Coprime m 210 ↔ Nat.Coprime (m % 210) 210 := by
  unfold Nat.Coprime
  conv_lhs => rw [Nat.gcd_comm, Nat.gcd_rec]

theorem cnorm_lt (i : Nat) : cnorm i < 48 := by
  unfold cnorm; split
  · assumption
  · exact Nat.zero_lt_succ _

/-- `Gen.next` in terms of the normalized cursor. -/
theorem Gen.step_eq (g : Gen) :
    g.step = ⟨g.n + g.k * wheelGet (cnorm g.i), g.k, cnorm g.i + 1⟩ := rfl

theorem Gen.next_fst (g : Gen) : g.next.1 = g.n := rfl

/-- Each `spin` send strictly increases the pending value (wheel
increments are at least 2 and `k ≥ 1`). -/
theorem Gen.n_lt_step_n (g : Gen) (hk : 1 ≤ g.k) : g.n < g.step.n := by
  have h2 : 2 ≤ wheelGet (cnorm g.i) := wheelGet_ge_two _ (cnorm_lt g.i)
  have h1 : 1 ≤ g.k * wheelGet (cnorm g.i) :=
    Nat.one_le_iff_ne_zero.mpr (Nat.mul_ne_zero (by omega) (by omega))
  show g.n < g.n + g.k * wheelGet (cnorm g.i)
  omega

theorem Gen.step_k (g : Gen) : g.step.k = g.k := rfl

/-- A `spin` stream with `k ≥ 1` is strictly increasing. -/
theorem Gen.nth_strictMono (g : Gen) (hk : 1 ≤ g.k) : StrictMono g.nth := by
  have key : ∀ t (g' : Gen), 1 ≤ g'.k → g'.nth t < g'.nth (t + 1) := by
    intro t
    induction t with
    | zero => intro g' h; exact g'.n_lt_step_n h
    | succ t ih =>
      intro g' h
      have := ih g'.step (by rw [Gen.step_k]; exact h)
      simpa [Gen.nth] using this
  exact strictMono_nat_of_lt_succ (fun t => key t g hk)

/-- `wres` is 48-periodic by construction. -/
theorem wres_mod (i : Nat) : wres (i % 48) = wres i := by
  unfold wres
  rw [Nat.mod_mod_of_dvd i (dvd_refl 48)]

theorem wres_coprime_all (i : Nat) : Nat.Coprime (wres i) 210 := by
  have h : i % 48 < 48 := Nat.mod_lt _ (by norm_num)
  have := wres_coprime (i % 48) h
  rwa [wres_mod] at this

/-- A residue identity also holds after adding a multiple of 210. -/
theorem mod_shift_eq (v w : Nat) :
    (v + w) % 210 = (v % 210 + w) % 210 :=
  ((Nat.mod_modEq v 210).add_right w).symm

/-- The aligned residue seen through the normalized cursor. -/
theorem Aligned.res_cnorm {v i : Nat} (h : Aligned v i) :
    v % 210 = wres (cnorm i) := by
  obtain ⟨hres, hle⟩ := h
  unfold cnorm
  split
  · exact hres
  · have h48 : i = 48 := by omega
    subst h48
    simpa [wres] using hres

/-- Alignment is preserved by one `spin` step. -/
theorem aligned_step {v i : Nat} (h : Aligned v i) :
    Aligned (v + wheelGet (cnorm i)) (cnorm i + 1) := by
  have hlt := cnorm_lt i
  refine ⟨?_, by omega⟩
  rw [mod_shift_eq, h.res_cnorm]
  exact wres_step (cnorm i) hlt

/-- Values in an aligned position are coprime to 210. -/
theorem aligned_coprime {v i : Nat} (h : Aligned v i) : Nat.Coprime v 210 := by
  rw [coprime210_mod, h.1]
  exact wres_coprime_all i

/-- The generator state after `t` sends. -/
def Gen.iter (g : Gen) : Nat → Gen
  | 0 => g
  | t + 1 => (g.iter t).step

theorem Gen.iter_succ_comm (g : Gen) (t : Nat) :
    g.iter (t + 1) = g.step.iter t := by
  induction t with
  | zero => rfl
  | succ t ih =>
    show (g.iter (t + 1)).step = _
    rw [ih]
    rfl

theorem Gen.nth_eq_iter_n (g : Gen) (t : Nat) : g.nth t = (g.iter t).n := by
  induction t generalizing g with
  | zero => rfl
  | succ t ih =>
    show g.step.nth t = _
    rw [ih, Gen.iter_succ_comm]

/-- A unit walk (`k = 1`) in phase with the wheel. -/
def AlignedG (g : Gen) : Prop := Aligned g.n g.i ∧ g.k = 1

theorem alignedG_step {g : Gen} (h : AlignedG g) : AlignedG g.step := by
  obtain ⟨ha, hk⟩ := h
  refine ⟨?_, hk⟩
  have := aligned_step ha
  rw [Gen.step_eq, hk]
  simpa using this

theorem AlignedG.iter {g : Gen} (h : AlignedG g) (t : Nat) :
    AlignedG (g.iter t) := by
  induction t with
  | zero => exact h
  | succ t ih => exact alignedG_step ih

/-- One step of a unit walk adds exactly the wheel increment. -/
theorem step_n_unit {g : Gen} (hk : g.k = 1) :
    g.step.n = g.n + wheelGet (cnorm g.i) := by
  rw [Gen.step_eq, hk]
  simp

/-- No integer strictly between an aligned value and its wheel successor
is coprime to 210. -/
theorem aligned_no_skip {v i : Nat} (h : Aligned v i) :
    ∀ d, 0 < d → d < wheelGet (cnorm i) → ¬ Nat.Coprime (v + d) 210 := by
  intro d hd hdw
  rw [coprime210_mod, mod_shift_eq, h.res_cnorm]
  exact wres_no_skip (cnorm i) (cnorm_lt i) d hdw hd

/-- Completeness of the aligned unit walk: every coprime value at or
beyond the start is reached. -/
theorem aligned_walk_complete :
    ∀ fuel v i, Aligned v i → ∀ m, Nat.Coprime m 210 → v ≤ m → m - v ≤ fuel →
      ∃ t, (spin v 1 i).nth t = m := by
  intro fuel
  induction fuel with
  | zero =>
    intro v i _ m _ hvm hf
    refine ⟨0, ?_⟩
    show v = m
    omega
  | succ fuel ih =>
    intro v i hA m hm hvm hf
    rcases Nat.eq_or_lt_of_le hvm with h | h
    · refine ⟨0, ?_⟩
      show v = m
      exact h
    · have hno := aligned_no_skip hA
      have hw2 : 2 ≤ wheelGet (cnorm i) := wheelGet_ge_two _ (cnorm_lt i)
      have hge : v + wheelGet (cnorm i) ≤ m := by
        by_contra hc
        push_neg at hc
        refine hno (m - v) (by omega) (by omega) ?_
        have : v + (m - v) = m := by omega
        rw [this]
        exact hm
      obtain ⟨t, ht⟩ := ih (v + wheelGet (cnorm i)) (cnorm i + 1) (aligned_step hA) m hm
        hge (by omega)
      refine ⟨t + 1, ?_⟩
      show ((spin v 1 i).step).nth t = m
      have hstep : (spin v 1 i).step = spin (v + wheelGet (cnorm i)) 1 (cnorm i + 1) := by
        show (⟨v + 1 * wheelGet (cnorm i), 1, cnorm i + 1⟩ : Gen) = _
        rw [Nat.one_mul]
        rfl
      rw [hstep]
      exact ht

/-- A `spin` stream with multiplier `c` starting at `c * a` is the unit
walk from `a` scaled by `c`. -/
theorem spin_scaled :
    ∀ t c a i, (spin (c * a) c i).nth t = c * (spin a 1 i).nth t := by
  intro t
  induction t with
  | zero => intro c a i; rfl
  | succ t ih =>
    intro c a i
    show ((spin (c * a) c i).step).nth t = c * ((spin a 1 i).step).nth t
    have h1 : (spin (c * a) c i).step = spin (c * (a + wheelGet (cnorm i))) c (cnorm i + 1) := by
      show (⟨c * a + c * wheelGet (cnorm i), c, cnorm i + 1⟩ : Gen) = _
      rw [← Nat.mul_add]
      rfl
    have h2 : (spin a 1 i).step = spin (a + wheelGet (cnorm i)) 1 (cnorm i + 1) := by
      show (⟨a + 1 * wheelGet (cnorm i), 1, cnorm i + 1⟩ : Gen) = _
      rw [Nat.one_mul]
      rfl
    rw [h1, h2, ih]

/-- For `p` coprime to 210 the `wheelpos` table yields an aligned start. -/
theorem multiples_aligned {p : Nat} (hp : Nat.Coprime p 210) :
    Aligned p (wheelpos (p % 210)) := by
  have hr : p % 210 < 210 := Nat.mod_lt _ (by norm_num)
  have hco : Nat.Coprime (p % 210) 210 := (coprime210_mod p).mp hp
  obtain ⟨h48, heq⟩ := wheelpos_wres (p % 210) hr hco
  exact ⟨heq.symm, by omega⟩

/-- Values of an aligned unit walk sit at or beyond the start. -/
theorem aligned_walk_ge {v i : Nat} (t : Nat) :
    v ≤ (spin v 1 i).nth t :=
  (Gen.nth_strictMono (spin v 1 i) (by rfl)).monotone (Nat.zero_le t)

/-- Values of an aligned unit walk are coprime to 210. -/
theorem aligned_walk_coprime {v i : Nat} (h : Aligned v i) (t : Nat) :
    Nat.Coprime ((spin v 1 i).nth t) 210 := by
  rw [Gen.nth_eq_iter_n]
  exact aligned_coprime ((AlignedG.iter ⟨h, rfl⟩ t).1)

/-- Coprimality to 210 is exactly indivisibility by 2, 3, 5 and 7. -/
theorem coprime210_iff_not_dvd (m : Nat) :
    Nat.Coprime m 210 ↔ ¬ 2 ∣ m ∧ ¬ 3 ∣ m ∧ ¬ 5 ∣ m ∧ ¬ 7 ∣ m := by
  constructor
  · intro h
    refine ⟨?_, ?_, ?_, ?_⟩ <;> intro hd
    · have h2 : (2 : Nat) ∣ Nat.gcd m 210 := Nat.dvd_gcd hd (by norm_num)
      rw [h] at h2
      exact absurd h2 (by norm_num)
    · have h3 : (3 : Nat) ∣ Nat.gcd m 210 := Nat.dvd_gcd hd (by norm_num)
      rw [h] at h3
      exact absurd h3 (by norm_num)
    · have h5 : (5 : Nat) ∣ Nat.gcd m 210 := Nat.dvd_gcd hd (by norm_num)
      rw [h] at h5
      exact absurd h5 (by norm_num)
    · have h7 : (7 : Nat) ∣ Nat.gcd m 210 := Nat.dvd_gcd hd (by norm_num)
      rw [h] at h7
      exact absurd h7 (by norm_num)
  · rintro ⟨h2, h3, h5, h7⟩
    have c2 : Nat.Coprime m 2 := (Nat.prime_two.coprime_iff_not_dvd.mpr h2).symm
    have c3 : Nat.Coprime m 3 := (Nat.prime_three.coprime_iff_not_dvd.mpr h3).symm
    have c5 : Nat.Coprime m 5 :=
      ((Nat.Prime.coprime_iff_not_dvd (by norm_num)).mpr h5).symm
    have c7 : Nat.Coprime m 7 :=
      ((Nat.Prime.coprime_iff_not_dvd (by norm_num)).mpr h7).symm
    have h210 : (210 : Nat) = 2 * (3 * (5 * 7)) := by norm_num
    rw [h210]
    exact Nat.Coprime.mul_right c2
      (Nat.Coprime.mul_right c3 (Nat.Coprime.mul_right c5 c7))

theorem aligned13 : Aligned 13 0 := ⟨by decide, by omega⟩

/-- Claim C5: for every prime `p ≥ 11` coprime to 210, `multiples(p)`
emits, in strictly increasing order starting at `p²`, exactly the
multiples of `p` whose cofactor is coprime to 210 (and at least `p`, so
that the stream starts at `p²`), the starting wheel index being looked
up from `wheelpos` keyed by `p mod 210`. -/
theorem claim_C5 (p : Nat) (hp : Nat.Prime p) (hp11 : 11 ≤ p)
    (hpc : Nat.Coprime p 210) :
    multiples p = spin (p * p) p (wheelpos (p % 210)) ∧
    (multiples p).nth 0 = p * p ∧
    StrictMono (multiples p).nth ∧
    ∀ m, (∃ t, (multiples p).nth t = m) ↔
      ∃ c, Nat.Coprime c 210 ∧ p ≤ c ∧ m = p * c := by
  refine ⟨rfl, rfl, ?_, ?_⟩
  · exact Gen.nth_strictMono _ (show 1 ≤ p by omega)
  · intro m
    constructor
    · rintro ⟨t, ht⟩
      refine ⟨(spin p 1 (wheelpos (p % 210))).nth t, ?_, ?_, ?_⟩
      · exact aligned_walk_coprime (multiples_aligned hpc) t
      · exact aligned_walk_ge t
      · rw [← ht]
        exact spin_scaled t p p _
    · rintro ⟨c, hc, hpc', rfl⟩
      obtain ⟨t, ht⟩ := aligned_walk_complete (c - p) p (wheelpos (p % 210))
        (multiples_aligned hpc) c hc hpc' (le_refl _)
      refine ⟨t, ?_⟩
      show (spin (p * p) p (wheelpos (p % 210))).nth t = p * c
      rw [spin_scaled, ht]

/-- Claim C5 witness at the first wheel-eligible prime 11. -/
theorem claim_C5_witness :
    Nat.Prime 11 ∧ 11 ≤ 11 ∧ Nat.Coprime 11 210 ∧
    (multiples 11 = spin (11 * 11) 11 (wheelpos (11 % 210)) ∧
     (multiples 11).nth 0 = 11 * 11 ∧
     StrictMono (multiples 11).nth ∧
     ∀ m, (∃ t, (multiples 11).nth t = m) ↔
       ∃ c, Nat.Coprime c 210 ∧ 11 ≤ c ∧ m = 11 * c) :=
  ⟨by norm_num, le_refl 11, by decide,
    claim_C5 11 (by norm_num) (le_refl 11) (by decide)⟩

/-- Claim C6 counterexample: 11 is an integer greater than 10 and
coprime to 210, yet the walk starting from 13 never visits it (all
visited values are at least 13), so the walk does not visit exactly the
integers greater than 10 that are coprime to 210. -/
theorem claim_C6_counterexample :
    10 < 11 ∧ Nat.Coprime 11 210 ∧ ¬ ∃ t, (spin 13 1 0).nth t = 11 := by
  refine ⟨by norm_num, by decide, ?_⟩
  rintro ⟨t, ht⟩
  have h := aligned_walk_ge (v := 13) (i := 0) t
  omega

/-- Claim C6 (amended): the wheel consists of 48 positive increments
summing to 210, and starting from 13 and repeatedly adding successive
increments (wrapping after 48 steps) visits exactly the integers
greater than 11 that are coprime to 210, in strictly increasing order,
never producing a value divisible by 2, 3, 5 or 7.  (The integer 11,
although greater than 10 and coprime to 210, lies below the start and is
not visited.) -/
theorem claim_C6_amended :
    wheel.length = 48 ∧ (∀ x ∈ wheel, 0 < x) ∧ wheel.sum = 210 ∧
    StrictMono (spin 13 1 0).nth ∧
    (∀ m, (∃ t, (spin 13 1 0).nth t = m) ↔ (11 < m ∧ Nat.Coprime m 210)) ∧
    (∀ t, ¬ 2 ∣ (spin 13 1 0).nth t ∧ ¬ 3 ∣ (spin 13 1 0).nth t ∧
      ¬ 5 ∣ (spin 13 1 0).nth t ∧ ¬ 7 ∣ (spin 13 1 0).nth t) := by
  refine ⟨by decide, by decide, by decide,
    Gen.nth_strictMono _ (le_refl 1), ?_, ?_⟩
  · intro m
    constructor
    · rintro ⟨t, ht⟩
      have hge := aligned_walk_ge (v := 13) (i := 0) t
      have hco := aligned_walk_coprime aligned13 t
      rw [ht] at hge hco
      exact ⟨by omega, hco⟩
    · rintro ⟨h11, hco⟩
      have h12 : m ≠ 12 := by
        rintro rfl
        exact absurd hco (by decide)
      exact aligned_walk_complete (m - 13) 13 0 aligned13 m hco (by omega)
        (le_refl _)
  · intro t
    exact (coprime210_iff_not_dvd _).mp (aligned_walk_coprime aligned13 t)

/-- Claim C7 counterexample: the candidate stream begins 13, 17, 19, 23,
29, 31, 37; the claimed sequence 13, 17, 19, 23, 25, 29, 31 is wrong at
the fifth value, and 25 (a multiple of 5) is never produced at all. -/
theorem claim_C7_counterexample :
    coprime2357.list 7 = [13, 17, 19, 23, 29, 31, 37] ∧
    coprime2357.list 7 ≠ [13, 17, 19, 23, 25, 29, 31] ∧
    ¬ ∃ t, coprime2357.nth t = 25 := by
  refine ⟨by decide, by decide, ?_⟩
  rintro ⟨t, ht⟩
  have hco := aligned_walk_coprime aligned13 t
  rw [show (spin 13 1 0) = coprime2357 from rfl, ht] at hco
  exact absurd hco (by decide)

/-- Claim C7 (amended): the candidate generator starts at 13 and each
successive value is the next integer greater than the previous one that
is coprime to 210, so the candidate sequence runs 13, 17, 19, 23, 29,
31, 37, ... (without 25, which is divisible by 5). -/
theorem claim_C7_amended :
    coprime2357.nth 0 = 13 ∧
    (∀ t, coprime2357.nth t < coprime2357.nth (t + 1) ∧
      Nat.Coprime (coprime2357.nth (t + 1)) 210 ∧
      ∀ x, coprime2357.nth t < x → x < coprime2357.nth (t + 1) →
        ¬ Nat.Coprime x 210) ∧
    coprime2357.list 7 = [13, 17, 19, 23, 29, 31, 37] := by
  refine ⟨rfl, ?_, by decide⟩
  intro t
  have hAG : AlignedG (coprime2357.iter t) := AlignedG.iter ⟨aligned13, rfl⟩ t
  have hstep : coprime2357.nth (t + 1) =
      (coprime2357.iter t).n + wheelGet (cnorm (coprime2357.iter t).i) := by
    rw [Gen.nth_eq_iter_n, show coprime2357.iter (t + 1) = (coprime2357.iter t).step
      from rfl, step_n_unit hAG.2]
  have hn : coprime2357.nth t = (coprime2357.iter t).n := Gen.nth_eq_iter_n _ t
  have hw2 : 2 ≤ wheelGet (cnorm (coprime2357.iter t).i) :=
    wheelGet_ge_two _ (cnorm_lt _)
  refine ⟨by omega, ?_, ?_⟩
  · rw [hstep]
    have := aligned_step hAG.1
    exact aligned_coprime this
  · intro x hx1 hx2
    rw [hn] at hx1
    rw [hstep] at hx2
    have hno := aligned_no_skip hAG.1 (x - (coprime2357.iter t).n)
      (by omega) (by omega)
    have hxe : (coprime2357.iter t).n + (x - (coprime2357.iter t).n) = x := by
      omega
    rwa [hxe] at hno

/-! ## Reference primality by trial division -/

/-- Check that no `e` with `d ≤ e` and `e * e ≤ n` divides `n`. -/
def noDivisorFrom : Nat → Nat → Nat → Bool
  | 0, _, _ => true
  | fuel + 1, d, n =>
    if d * d ≤ n then
      if n % d = 0 then false else noDivisorFrom fuel (d + 1) n
    else
      true

/-- Executable trial-division primality test. -/
def isPrimeB (n : Nat) : Bool := decide (2 ≤ n) && noDivisorFrom n 2 n

theorem noDivisorFrom_iff :
    ∀ fuel d n, n + 1 ≤ d + fuel → 1 ≤ d →
      (noDivisorFrom fuel d n = true ↔ ∀ e, d ≤ e → e * e ≤ n → ¬ e ∣ n) := by
  intro fuel
  induction fuel with
  | zero =>
    intro d n hf hd
    refine ⟨fun _ e hde hen => ?_, fun _ => rfl⟩
    exfalso
    have h1 : e ≤ e * e := Nat.le_mul_of_pos_left e (by omega)
    omega
  | succ fuel ih =>
    intro d n hf hd
    show (if d * d ≤ n then
        (if n % d = 0 then false else noDivisorFrom fuel (d + 1) n)
      else true) = true ↔ _
    split
    · split
      · constructor
        · intro h
          exact absurd h (by simp)
        · intro hall
          exact
            (hall d (le_refl d) (by assumption)
              (Nat.dvd_iff_mod_eq_zero.mpr (by assumption))).elim
      · rw [ih (d + 1) n (by omega) (by omega)]
        constructor
        · intro h e hde hen
          rcases Nat.eq_or_lt_of_le hde with rfl | hlt
          · intro hdvd
            have hz := Nat.dvd_iff_mod_eq_zero.mp hdvd
            exact absurd hz (by assumption)
          · exact h e hlt hen
        · intro h e hde hen
          exact h e (by omega) hen
    · refine ⟨fun _ e hde hen => ?_, fun _ => rfl⟩
      exfalso
      have h1 : d * d ≤ e * e := Nat.mul_le_mul hde hde
      omega

/-- The executable test agrees with `Nat.Prime`. -/
theorem isPrimeB_iff (n : Nat) : isPrimeB n = true ↔ Nat.Prime n := by
  rw [Nat.prime_def_le_sqrt]
  unfold isPrimeB
  rw [Bool.and_eq_true, decide_eq_true_iff,
    noDivisorFrom_iff n 2 n (by omega) (by omega)]
  constructor
  · rintro ⟨h2, hnd⟩
    refine ⟨h2, ?_⟩
    intro m hm hms
    exact hnd m hm (Nat.le_sqrt.mp hms)
  · rintro ⟨h2, hnd⟩
    refine ⟨h2, ?_⟩
    intro e he hee
    exact hnd e he (Nat.le_sqrt.mpr hee)

/-! ## Merge-loop invariants

Everything the merge goroutine queues is a multiple of an already
registered prime (or the seed 143), which is what makes the
`min == head` dedup branch dead and pins down what the output can
contain. -/

/-- A heap entry produced from `multiples q` for a registered `q ∈ P`:
its multiplier is `q` and both its cached head and its pending generator
value are multiples of `q`. -/
def EntryDiv (P : List Nat) (e : PeekCh) : Prop :=
  ∃ q ∈ P, e.ch.k = q ∧ q ∣ e.head ∧ q ∣ e.ch.n

/-- The running minimum is the seed 143 or a multiple of a registered
prime. -/
def MinOK (P : List Nat) (m : Nat) : Prop := m = 143 ∨ ∃ q ∈ P, q ∣ m

/-- Invariant of the merge state relative to the registered primes `P`. -/
def MInv (P : List Nat) (s : MState) : Prop :=
  (∀ e ∈ s.heap, EntryDiv P e) ∧ MinOK P s.mn

theorem entryDiv_mono {P Q : List Nat} (hPQ : ∀ q ∈ P, q ∈ Q) {e : PeekCh}
    (h : EntryDiv P e) : EntryDiv Q e := by
  obtain ⟨q, hq, hk, h1, h2⟩ := h
  exact ⟨q, hPQ q hq, hk, h1, h2⟩

theorem minOK_mono {P Q : List Nat} (hPQ : ∀ q ∈ P, q ∈ Q) {m : Nat}
    (h : MinOK P m) : MinOK Q m := by
  rcases h with h | ⟨q, hq, hdvd⟩
  · exact Or.inl h
  · exact Or.inr ⟨q, hPQ q hq, hdvd⟩

theorem minv_widen {P Q : List Nat} (hPQ : ∀ q ∈ P, q ∈ Q) {s : MState}
    (h : MInv P s) : MInv Q s :=
  ⟨fun e he => entryDiv_mono hPQ (h.1 e he), minOK_mono hPQ h.2⟩

theorem heapPop_mem :
    ∀ {l : List PeekCh} {m : PeekCh} {rest : List PeekCh},
      heapPop l = some (m, rest) → m ∈ l ∧ ∀ e ∈ rest, e ∈ l := by
  intro l
  induction l with
  | nil => intro m rest h; simp [heapPop] at h
  | cons a l ih =>
    intro m rest h
    rcases hl : heapPop l with _ | ⟨m', rest'⟩
    · simp only [heapPop, hl, Option.some.injEq, Prod.mk.injEq] at h
      obtain ⟨rfl, rfl⟩ := h
      refine ⟨List.mem_cons_self a l, ?_⟩
      intro x hx
      exact absurd hx (List.not_mem_nil x)
    · simp only [heapPop, hl] at h
      split at h <;> simp only [Option.some.injEq, Prod.mk.injEq] at h <;>
        obtain ⟨rfl, rfl⟩ := h
      · exact ⟨List.mem_cons_self a l, fun x hx => List.mem_cons_of_mem a hx⟩
      · obtain ⟨hm', hsub⟩ := ih hl
        refine ⟨List.mem_cons_of_mem a hm', ?_⟩
        intro x hx
        rcases List.mem_cons.mp hx with rfl | hx'
        · exact List.mem_cons_self x l
        · exact List.mem_cons_of_mem a (hsub x hx')

/-- A generator whose pending value is a multiple of its multiplier
keeps producing multiples of it. -/
theorem Gen.step_dvd {g : Gen} {q : Nat} (hk : g.k = q) (hn : q ∣ g.n) :
    q ∣ g.step.n := by
  rw [Gen.step_eq, hk]
  exact Nat.dvd_add hn (Dvd.intro _ rfl)

/-- The emit loop preserves the invariant, and everything it sends is
either already accumulated, the seed 143, or a multiple of a registered
prime. -/
theorem mergeEmitLoop_invOut {P : List Nat} :
    ∀ fuel h s acc out s', mergeEmitLoop fuel h s acc = some (out, s') →
      MInv P s →
      MInv P s' ∧ ∀ x ∈ out, x ∈ acc ∨ x = 143 ∨ ∃ q ∈ P, q ∣ x := by
  intro fuel
  induction fuel with
  | zero =>
    intro h s acc out s' heq
    simp [mergeEmitLoop] at heq
  | succ fuel ih =>
    intro h s acc out s' heq hinv
    simp only [mergeEmitLoop] at heq
    split at heq
    · rcases hp : heapPop s.heap with _ | ⟨m, rest⟩
      · rw [hp] at heq
        exact absurd heq (by simp)
      · rw [hp] at heq
        obtain ⟨hmem, hsub⟩ := heapPop_mem hp
        obtain ⟨q, hq, hk, h1, h2⟩ := hinv.1 m hmem
        have hinv' : MInv P ⟨⟨m.ch.next.1, m.ch.next.2⟩ :: rest, m.head⟩ := by
          constructor
          · intro e he
            rcases List.mem_cons.mp he with rfl | he'
            · exact ⟨q, hq, hk, h2, Gen.step_dvd hk h2⟩
            · exact hinv.1 e (hsub e he')
          · exact Or.inr ⟨q, hq, h1⟩
        obtain ⟨hinv'', hout⟩ := ih _ _ _ _ _ heq hinv'
        refine ⟨hinv'', ?_⟩
        intro x hx
        rcases hout x hx with hacc | hrest
        · rcases List.mem_cons.mp hacc with rfl | hacc'
          · exact Or.inr hinv.2
          · exact Or.inl hacc'
        · exact Or.inr hrest
    · simp only [Option.some.injEq, Prod.mk.injEq] at heq
      obtain ⟨rfl, rfl⟩ := heq
      exact ⟨hinv, fun x hx => Or.inl hx⟩

/-- If the running minimum differs from the head, the dedup loop is a
no-op (its body runs zero times). -/
theorem mergeDedupLoop_noop {fuel h : Nat} {s : MState} (hne : s.mn ≠ h) :
    ∀ {r}, mergeDedupLoop fuel h s = some r → r = (s, 0) := by
  cases fuel with
  | zero => intro r hr; simp [mergeDedupLoop] at hr
  | succ fuel =>
    intro r hr
    simp only [mergeDedupLoop, if_neg hne] at hr
    exact (Option.some.inj hr).symm

/-- No natural number squares to the seed 143. -/
theorem sq_ne_143 (p : Nat) : p * p ≠ 143 := by
  intro h
  rcases Nat.lt_or_ge p 12 with hlt | hge
  · have hle : p * p ≤ 11 * 11 := Nat.mul_le_mul (by omega) (by omega)
    omega
  · have hge' : 12 * 12 ≤ p * p := Nat.mul_le_mul hge hge
    omega

/-- Anything satisfying the invariant over primes smaller than `p`
cannot equal `p * p`. -/
theorem minOK_ne_sq {P : List Nat} {p m : Nat} (hp : Nat.Prime p)
    (hP : ∀ q ∈ P, Nat.Prime q ∧ q < p) (hm : MinOK P m) : m ≠ p * p := by
  rcases hm with rfl | ⟨q, hq, hdvd⟩
  · exact fun h => sq_ne_143 p h.symm
  · rintro rfl
    obtain ⟨hqp, hqlt⟩ := hP q hq
    have hqdp : q ∣ p := by
      rcases (Nat.Prime.dvd_mul hqp).mp hdvd with h | h <;> exact h
    have := (Nat.prime_dvd_prime_iff_eq hqp hp).mp hqdp
    omega

/-- One outer merge iteration on a freshly received prime `p` larger
than every registered prime: the dedup body never runs, the invariant
extends to `p`, and everything emitted is the seed or a multiple of a
registered prime. -/
theorem mergeIter_invOut {P : List Nat} {p : Nat} (hp : Nat.Prime p)
    (hP : ∀ q ∈ P, Nat.Prime q ∧ q < p) {fuel : Nat} {s : MState}
    {out : List Nat} {s' : MState} {c : Nat}
    (heq : mergeIter fuel p s = some (out, s', c)) (hinv : MInv P s) :
    MInv (p :: P) s' ∧ c = 0 ∧
      ∀ x ∈ out, x = 143 ∨ ∃ q ∈ p :: P, q ∣ x := by
  have hsub : ∀ q ∈ P, q ∈ p :: P := fun q hq => List.mem_cons_of_mem p hq
  simp only [mergeIter] at heq
  split at heq
  · exact absurd heq (by simp)
  · rename_i acc s1 h1
    obtain ⟨hinv1, hout1⟩ := mergeEmitLoop_invOut _ _ _ _ _ _ h1 hinv
    split at heq
    · exact absurd heq (by simp)
    · rename_i s2 c2 h2
      have hne : s1.mn ≠ (multiples p).next.1 :=
        minOK_ne_sq hp hP hinv1.2
      obtain ⟨rfl, rfl⟩ : s2 = s1 ∧ c2 = 0 := by
        have hr := mergeDedupLoop_noop hne h2
        exact ⟨congrArg Prod.fst hr, congrArg Prod.snd hr⟩
      simp only [Option.some.injEq, Prod.mk.injEq] at heq
      obtain ⟨rfl, rfl, rfl⟩ := heq
      refine ⟨⟨?_, minOK_mono hsub hinv1.2⟩, rfl, ?_⟩
      · intro e he
        rcases List.mem_cons.mp he with rfl | he'
        · refine ⟨p, List.mem_cons_self p P, rfl, ?_, ?_⟩
          · exact Gen.step_dvd rfl ⟨p, rfl⟩
          · exact Gen.step_dvd rfl (Gen.step_dvd rfl ⟨p, rfl⟩)
        · exact entryDiv_mono hsub (hinv1.1 e he')
      · intro x hx
        rcases List.mem_append.mp hx with hx' | hx'
        · rcases hout1 x (List.mem_reverse.mp hx') with h | h | ⟨q, hq, hd⟩
          · exact absurd h (List.not_mem_nil x)
          · exact Or.inl h
          · exact Or.inr ⟨q, hsub q hq, hd⟩
        · have hxp : x = p * p := by
            rcases List.mem_singleton.mp hx' with rfl
            rfl
          exact Or.inr ⟨p, List.mem_cons_self p P, hxp ▸ ⟨p, rfl⟩⟩

/-- The merge goroutine, fed any strictly increasing list of primes
exceeding the already registered ones, never runs its dedup body, and
emits only the seed 143 and multiples of received or registered
primes. -/
theorem mergeRun_invOut :
    ∀ (ps : List Nat) (fuel : Nat) (s : MState) (P : List Nat)
      (out : List Nat) (s' : MState) (c : Nat),
      (∀ q ∈ P, Nat.Prime q ∧ ∀ p ∈ ps, q < p) →
      List.Pairwise (· < ·) ps →
      (∀ p ∈ ps, Nat.Prime p) →
      MInv P s →
      mergeRun fuel ps s = some (out, s', c) →
      c = 0 ∧ ∀ x ∈ out, x = 143 ∨ ∃ q, (q ∈ ps ∨ q ∈ P) ∧ q ∣ x := by
  intro ps
  induction ps with
  | nil =>
    intro fuel s P out s' c _ _ _ _ heq
    simp only [mergeRun, Option.some.injEq, Prod.mk.injEq] at heq
    obtain ⟨rfl, rfl, rfl⟩ := heq
    exact ⟨rfl, fun x hx => absurd hx (List.not_mem_nil x)⟩
  | cons p ps ih =>
    intro fuel s P out s' c hP hpair hprime hinv heq
    simp only [mergeRun] at heq
    split at heq
    · exact absurd heq (by simp)
    · rename_i o1 s1 c1 h1
      split at heq
      · exact absurd heq (by simp)
      · rename_i o2 s2 c2 h2
        simp only [Option.some.injEq, Prod.mk.injEq] at heq
        obtain ⟨rfl, rfl, rfl⟩ := heq
        have hplt : ∀ p' ∈ ps, p < p' := by
          intro p' hp'
          exact List.rel_of_pairwise_cons hpair hp'
        obtain ⟨hinv1, hc1, hout1⟩ := mergeIter_invOut
          (hprime p (List.mem_cons_self p ps))
          (fun q hq => ⟨(hP q hq).1, (hP q hq).2 p (List.mem_cons_self p ps)⟩)
          h1 hinv
        obtain ⟨hc2, hout2⟩ := ih fuel s1 (p :: P) o2 s2 c2
          (by
            intro q hq
            rcases List.mem_cons.mp hq with rfl | hq'
            · exact ⟨hprime q (List.mem_cons_self q ps), hplt⟩
            · exact ⟨(hP q hq').1, fun p' hp' =>
                (hP q hq').2 p' (List.mem_cons_of_mem p hp')⟩)
          (List.Pairwise.of_cons hpair)
          (fun p' hp' => hprime p' (List.mem_cons_of_mem p hp'))
          hinv1 h2
        refine ⟨by omega, ?_⟩
        intro x hx
        rcases List.mem_append.mp hx with hx' | hx'
        · rcases hout1 x hx' with h | ⟨q, hq, hd⟩
          · exact Or.inl h
          · rcases List.mem_cons.mp hq with rfl | hq'
            · exact Or.inr ⟨q, Or.inl (List.mem_cons_self q ps), hd⟩
            · exact Or.inr ⟨q, Or.inr hq', hd⟩
        · rcases hout2 x hx' with h | ⟨q, hq, hd⟩
          · exact Or.inl h
          · rcases hq with hq | hq
            · exact Or.inr ⟨q, Or.inl (List.mem_cons_of_mem p hq), hd⟩
            · rcases List.mem_cons.mp hq with rfl | hq'
              · exact Or.inr ⟨q, Or.inl (List.mem_cons_self q ps), hd⟩
              · exact Or.inr ⟨q, Or.inr hq', hd⟩

/-- Executable check that a list is non-decreasing. -/
def chainLeB : List Nat → Bool
  | [] => true
  | [_] => true
  | a :: b :: t => decide (a ≤ b) && chainLeB (b :: t)

/-- Executable check that a list is strictly increasing. -/
def chainLtB : List Nat → Bool
  | [] => true
  | [_] => true
  | a :: b :: t => decide (a < b) && chainLtB (b :: t)

theorem chainLeB_iff : ∀ l : List Nat, chainLeB l = true ↔ List.Chain' (· ≤ ·) l
  | [] => by simp [chainLeB]
  | [a] => by simp [chainLeB]
  | a :: b :: t => by
    rw [List.chain'_cons,
      show chainLeB (a :: b :: t) = (decide (a ≤ b) && chainLeB (b :: t)) from
        rfl,
      Bool.and_eq_true, decide_eq_true_iff, chainLeB_iff (b :: t)]

theorem chainLtB_iff : ∀ l : List Nat, chainLtB l = true ↔ List.Chain' (· < ·) l
  | [] => by simp [chainLtB]
  | [a] => by simp [chainLtB]
  | a :: b :: t => by
    rw [List.chain'_cons,
      show chainLtB (a :: b :: t) = (decide (a < b) && chainLtB (b :: t)) from
        rfl,
      Bool.and_eq_true, decide_eq_true_iff, chainLtB_iff (b :: t)]

/-- Claim C10: fed any strictly increasing stream of primes (as happens
in the pipeline, whose feedback stream carries 11, 13, 17, ... in
order), the duplicate-collapsing `min == head` loop body is never
executed: the head of a new prime's multiples channel is its square,
which no earlier registered prime divides, while `min` is always the
seed 143 or a multiple of an earlier registered prime. -/
theorem claim_C10 (fuel : Nat) (ps : List Nat) (c : Nat)
    (hprime : ∀ p ∈ ps, Nat.Prime p)
    (hsort : List.Chain' (· < ·) ps)
    (hc : mergeDedupCount fuel ps = some c) :
    c = 0 := by
  unfold mergeDedupCount at hc
  rcases hr : mergeRun fuel ps mergeInit with _ | ⟨out, s', c'⟩
  · rw [hr] at hc
    exact absurd hc (by simp)
  · rw [hr] at hc
    simp only [Option.map_some'] at hc
    obtain rfl := Option.some.inj hc
    have hinv0 : MInv [] mergeInit := by
      constructor
      · intro e he
        exact absurd he (List.not_mem_nil e)
      · exact Or.inl rfl
    obtain ⟨hc0, _⟩ := mergeRun_invOut ps fuel mergeInit [] out s' c'
      (fun q hq => absurd hq (List.not_mem_nil q))
      (List.chain'_iff_pairwise.mp hsort) hprime hinv0 hr
    exact hc0

/-- Claim C10 witness: the concrete feed 11, 13 satisfies the
hypotheses, and the run reports zero executions of the dedup body. -/
theorem claim_C10_witness :
    (∀ p ∈ ([11, 13] : List Nat), Nat.Prime p) ∧
    List.Chain' (· < ·) ([11, 13] : List Nat) ∧
    mergeDedupCount 9 [11, 13] = some 0 ∧ (0 : Nat) = 0 :=
  ⟨by decide, (chainLtB_iff _).mp (by decide), by decide,
    claim_C10 9 [11, 13] 0 (by decide) ((chainLtB_iff _).mp (by decide))
      (by decide)⟩

/-- Claim C2 counterexample: with confirmed primes 11 and 13 the merge
loop emits 121, 143, 143, 169 — the composite 143 = 11 · 13 appears
twice on the composites channel, and the emitted values are not
strictly increasing. -/
theorem claim_C2_counterexample :
    mergeOut 9 [11, 13] = some [121, 143, 143, 169] ∧
    ([121, 143, 143, 169] : List Nat).count 143 = 2 ∧
    ¬ List.Chain' (· < ·) ([121, 143, 143, 169] : List Nat) :=
  ⟨by decide, by decide, by rw [← chainLtB_iff]; decide⟩

/-- The first ten wheel-eligible primes, as the feedback stream
delivers them. -/
def feed10 : List Nat := [11, 13, 17, 19, 23, 29, 31, 37, 41, 43]

/-- The composite stream produced for the feed of the first ten wheel
primes. -/
def composites43 : List Nat := (mergeOut 999 feed10).getD []

set_option maxRecDepth 40000 in
/-- Claim C2 (amended): the merged composite stream is non-decreasing
(not strictly increasing) and every value it emits is the seed 143 or a
multiple of a registered prime; each composite in range is emitted at
least once, but a value reachable through two different streams is
emitted once per stream — concretely, for the feed 11..43 the only
repeated values are 143 (queued as the seed and again by 11's stream)
and 1573 = 11 · 11 · 13 (in both 11's and 13's streams), each emitted
twice, and collapsing adjacent duplicates leaves exactly the integers
in [121, 1849] coprime to 210 that are not prime, in strictly
increasing order. -/
theorem claim_C2_amended :
    (∀ fuel ps out, (∀ p ∈ ps, Nat.Prime p) → List.Chain' (· < ·) ps →
      mergeOut fuel ps = some out →
      ∀ x ∈ out, x = 143 ∨ ∃ q ∈ ps, q ∣ x) ∧
    mergeOut 999 feed10 = some composites43 ∧
    List.Chain' (· ≤ ·) composites43 ∧
    composites43.count 143 = 2 ∧
    composites43.count 1573 = 2 ∧
    composites43.filter (fun x => decide (2 ≤ composites43.count x)) =
      [143, 143, 1573, 1573] ∧
    List.Chain' (· < ·) (dedupAdj composites43) ∧
    dedupAdj composites43 = (List.range 1850).filter
      (fun x => decide (121 ≤ x) && decide (Nat.Coprime x 210) &&
        !(isPrimeB x)) ∧
    (∀ n, isPrimeB n = true ↔ Nat.Prime n) := by
  refine ⟨?_, by decide, (chainLeB_iff _).mp (by decide), by decide, by decide,
    by decide, (chainLtB_iff _).mp (by decide), by decide, isPrimeB_iff⟩
  intro fuel ps out hprime hsort hout x hx
  unfold mergeOut at hout
  rcases hr : mergeRun fuel ps mergeInit with _ | ⟨o, s', c⟩
  · rw [hr] at hout
    exact absurd hout (by simp)
  · rw [hr] at hout
    simp only [Option.map_some'] at hout
    obtain rfl := Option.some.inj hout
    have hinv0 : MInv [] mergeInit := by
      constructor
      · intro e he
        exact absurd he (List.not_mem_nil e)
      · exact Or.inl rfl
    obtain ⟨_, hmem⟩ := mergeRun_invOut ps fuel mergeInit [] o s' c
      (fun q hq => absurd hq (List.not_mem_nil q))
      (List.chain'_iff_pairwise.mp hsort) hprime hinv0 hr
    rcases hmem x hx with h | ⟨q, hq, hd⟩
    · exact Or.inl h
    · rcases hq with hq | hq
      · exact Or.inr ⟨q, hq, hd⟩
      · exact absurd hq (List.not_mem_nil q)

/-- Claim C8 counterexample: the running minimum is seeded with 143,
which is not the square of the first wheel-eligible prime 11, since
11 · 11 = 121 ≠ 143. -/
theorem claim_C8_counterexample :
    mergeInit.mn = 143 ∧ (143 : Nat) ≠ 11 * 11 :=
  ⟨rfl, by decide⟩

/-- Claim C8 (amended): `min` is seeded with 143 = 11 · 13, the second
element of multiples(11) — i.e. the head that will sit in the queue
right after the first feedback prime 11 is registered (11's square 121
is emitted directly at that registration, not queued).  After that
first registration `min` equals the single queued head. -/
theorem claim_C8_amended :
    mergeInit.mn = 143 ∧ (143 : Nat) = 11 * 13 ∧
    (multiples 11).nth 1 = 143 ∧
    mergeRun 9 [11] mergeInit =
      some ([121], ⟨[⟨143, ⟨187, 11, 1⟩⟩], 143⟩, 0) ∧
    (∀ e ∈ (⟨[⟨143, ⟨187, 11, 1⟩⟩], 143⟩ : MState).heap,
      (⟨[⟨143, ⟨187, 11, 1⟩⟩], 143⟩ : MState).mn ≤ e.head) :=
  ⟨rfl, by decide, by decide, by decide, by decide⟩

/-! ## The feedback buffer: sendproxy and the bounded channel -/

/-- State of the `sendproxy` goroutine of sieve3.go: the buffered values
in FIFO order (head is the value `first` points at, the next forwarded
to `out`), the number of allocated ring slots, and the Go variable `n`
(the size of the ring segment linked in on the next expansion). -/
structure Proxy where
  buf : List Nat
  cap : Nat
  nvar : Nat
deriving DecidableEq, Repr

/-- `sendproxy` starts with `first := ring.New(1024)` (an empty ring of
1024 slots) and `n := 1024`. -/
def proxyInit : Proxy := ⟨[], 1024, 1024⟩

/-- One `case e, ok := <-proxy` step: store the value at `last`; if the
ring just became full (`last.Next() == first`), link in `ring.New(n)`
fresh slots and double `n`; advance `last`.  The value is always
accepted. -/
def proxyWrite (s : Proxy) (e : Nat) : Proxy :=
  if (s.buf ++ [e]).length = s.cap then
    ⟨s.buf ++ [e], s.cap + s.nvar, s.nvar * 2⟩
  else
    ⟨s.buf ++ [e], s.cap, s.nvar⟩

/-- A burst of writes with the reader never draining. -/
def proxyWrites (s : Proxy) : List Nat → Proxy
  | [] => s
  | e :: es => proxyWrites (proxyWrite s e) es

/-- One `case c <- e` step: disabled (`c = nil`) while the buffer is
empty, otherwise forwards the value at `first` and advances `first`. -/
def proxyRead (s : Proxy) : Option (Nat × Proxy) :=
  match s.buf with
  | [] => none
  | e :: t => some (e, ⟨t, s.cap, s.nvar⟩)

/-- Drain the proxy buffer: the values `out` receives once the reader
resumes. -/
def proxyDrain : Nat → Proxy → List Nat
  | 0, _ => []
  | fuel + 1, s =>
    match proxyRead s with
    | none => []
    | some (e, s') => e :: proxyDrain fuel s'

theorem proxyWrite_buf (s : Proxy) (e : Nat) :
    (proxyWrite s e).buf = s.buf ++ [e] := by
  unfold proxyWrite
  split <;> rfl

theorem proxyWrites_buf :
    ∀ (ws : List Nat) (s : Proxy), (proxyWrites s ws).buf = s.buf ++ ws := by
  intro ws
  induction ws with
  | nil => intro s; simp [proxyWrites]
  | cons e es ih =>
    intro s
    show (proxyWrites (proxyWrite s e) es).buf = _
    rw [ih, proxyWrite_buf]
    simp

theorem proxyWrite_nvar_cap {s : Proxy} (h : s.nvar = s.cap) (e : Nat) :
    (proxyWrite s e).nvar = (proxyWrite s e).cap := by
  unfold proxyWrite
  split
  · show s.nvar * 2 = s.cap + s.nvar
    omega
  · exact h

theorem proxyWrites_nvar_cap :
    ∀ (ws : List Nat) (s : Proxy), s.nvar = s.cap →
      (proxyWrites s ws).nvar = (proxyWrites s ws).cap := by
  intro ws
  induction ws with
  | nil => intro s h; exact h
  | cons e es ih =>
    intro s h
    exact ih (proxyWrite s e) (proxyWrite_nvar_cap h e)

theorem proxyDrain_all :
    ∀ (fuel : Nat) (s : Proxy), s.buf.length ≤ fuel →
      proxyDrain fuel s = s.buf := by
  intro fuel
  induction fuel with
  | zero =>
    intro s h
    have : s.buf = [] := List.eq_nil_of_length_eq_zero (by omega)
    rw [this]
    rfl
  | succ fuel ih =>
    intro s h
    have hd : proxyDrain (fuel + 1) s =
        match s.buf with
        | [] => []
        | e :: t => e :: proxyDrain fuel ⟨t, s.cap, s.nvar⟩ := by
      show (match proxyRead s with
        | none => []
        | some (e, s') => e :: proxyDrain fuel s') = _
      unfold proxyRead
      rcases s.buf with _ | ⟨e, t⟩ <;> rfl
    rcases hb : s.buf with _ | ⟨e, t⟩
    · rw [hd, hb]
    · rw [hd, hb]
      have hlen : t.length ≤ fuel := by
        have hc := congrArg List.length hb
        simp at hc
        omega
      show e :: proxyDrain fuel ⟨t, s.cap, s.nvar⟩ = e :: t
      rw [ih ⟨t, s.cap, s.nvar⟩ hlen]

/-- Claim C3: the sendproxy write end never blocks — any finite burst of
writes is accepted (and retained in FIFO order) even if the reader never
drains; its circular buffer doubles in capacity whenever a write fills
it; and once draining resumes every buffered value is delivered exactly
once, in write order. -/
theorem claim_C3 :
    (∀ ws : List Nat, (proxyWrites proxyInit ws).buf = ws) ∧
    (∀ (s : Proxy) (e : Nat), (proxyWrite s e).buf = s.buf ++ [e]) ∧
    (∀ (s : Proxy) (e : Nat), s.nvar = s.cap →
      (s.buf ++ [e]).length = s.cap → (proxyWrite s e).cap = 2 * s.cap) ∧
    (∀ ws : List Nat,
      (proxyWrites proxyInit ws).nvar = (proxyWrites proxyInit ws).cap) ∧
    (∀ (ws : List Nat) (fuel : Nat), ws.length ≤ fuel →
      proxyDrain fuel (proxyWrites proxyInit ws) = ws) := by
  refine ⟨?_, proxyWrite_buf, ?_, ?_, ?_⟩
  · intro ws
    rw [proxyWrites_buf]
    rfl
  · intro s e hnc hfill
    unfold proxyWrite
    rw [if_pos hfill]
    show s.cap + s.nvar = 2 * s.cap
    omega
  · intro ws
    exact proxyWrites_nvar_cap ws proxyInit rfl
  · intro ws fuel hlen
    rw [proxyDrain_all fuel (proxyWrites proxyInit ws)
      (by rw [proxyWrites_buf]; simpa [proxyInit] using hlen)]
    rw [proxyWrites_buf]
    rfl

/-- A send on a Go channel of capacity `cap` whose `cap`-slot buffer
holds `q`, with no concurrent receiver: accepted exactly when there is
room, otherwise the sender blocks. -/
def chanSend (cap : Nat) (q : List Nat) (e : Nat) : Option (List Nat) :=
  if q.length < cap then some (q ++ [e]) else none

/-- Capacity of the feedback channel `primes := make(chan int, n)`
inside sieve2.go's `Primes(n)` (and `Sieve(n)` of the first unnamed
variant): the caller-supplied bound `n`, not an unbounded buffer. -/
def sieve2FeedbackCap (n : Nat) : Nat := n

/-- Claim C4 counterexample: sieve2's `Primes(5)` feeds newly found
primes into a bounded channel of capacity 5; with the primes 13, 17,
19, 23, 29 pending and the merger not draining, registering the next
prime 31 is not accepted — the sieve loop blocks, so the feedback path
of this implementation is not the unbounded buffer. -/
theorem claim_C4_counterexample :
    sieve2FeedbackCap 5 = 5 ∧
    chanSend (sieve2FeedbackCap 5) [13, 17, 19, 23, 29] 31 = none :=
  ⟨rfl, by decide⟩

/-- Claim C4 (amended): only sieve3.go and the second unnamed variant
route newly discovered primes through the unbounded sendproxy buffer
(whose write end always accepts); sieve2.go and the first unnamed
variant use a bounded feedback channel of caller-chosen capacity `n`,
which accepts a send only while fewer than `n` values are pending, so
registering a prime can block there and — as sieve2's own documentation
states — reading more primes than the capacity supports deadlocks. -/
theorem claim_C4_amended :
    (∀ (s : Proxy) (e : Nat), (proxyWrite s e).buf = s.buf ++ [e]) ∧
    (∀ (n : Nat) (q : List Nat) (e : Nat), q.length < sieve2FeedbackCap n →
      chanSend (sieve2FeedbackCap n) q e = some (q ++ [e])) ∧
    (∀ (n : Nat) (q : List Nat) (e : Nat), sieve2FeedbackCap n ≤ q.length →
      chanSend (sieve2FeedbackCap n) q e = none) := by
  refine ⟨proxyWrite_buf, ?_, ?_⟩
  · intro n q e h
    unfold chanSend
    rw [if_pos h]
  · intro n q e h
    unfold chanSend
    rw [if_neg (by omega)]

/-! ## The sieve control loop -/

theorem sieveInner_lt {fuel p c : Nat} (g : Gen) (h : p < c) :
    sieveInner (fuel + 1) p g c =
      match sieveInner fuel g.next.1 g.next.2 c with
      | none => none
      | some (os, p', g') => some (p :: os, p', g') := by
  show (if p < c then _ else _) = _
  rw [if_pos h]

theorem sieveInner_eqc {fuel p c : Nat} (g : Gen) (h1 : ¬ p < c)
    (h2 : p = c) :
    sieveInner (fuel + 1) p g c = some ([], g.next.1, g.next.2) := by
  show (if p < c then _ else if p = c then _ else _) = _
  rw [if_neg h1, if_pos h2]

theorem sieveInner_gtc {fuel p c : Nat} (g : Gen) (h1 : ¬ p < c)
    (h2 : ¬ p = c) :
    sieveInner (fuel + 1) p g c = some ([], p, g) := by
  show (if p < c then _ else if p = c then _ else _) = _
  rw [if_neg h1, if_neg h2]

theorem sieveRun_cons (fuel c : Nat) (cs : List Nat) (p : Nat) (g : Gen) :
    sieveRun fuel (c :: cs) p g =
      match sieveInner fuel p g c with
      | none => none
      | some (os, p', g') =>
        match sieveRun fuel cs p' g' with
        | none => none
        | some (os', p'', g'') => some (os ++ os', p'', g'') := rfl

theorem sieveRun_cons_some {fuel c : Nat} {cs : List Nat} {p : Nat} {g : Gen}
    {os : List Nat} {p' : Nat} {g' : Gen}
    (h : sieveInner fuel p g c = some (os, p', g')) :
    sieveRun fuel (c :: cs) p g =
      match sieveRun fuel cs p' g' with
      | none => none
      | some (os', p'', g'') => some (os ++ os', p'', g'') := by
  rw [sieveRun_cons, h]

theorem sieveRun_cons_none {fuel c : Nat} {cs : List Nat} {p : Nat} {g : Gen}
    (h : sieveInner fuel p g c = none) :
    sieveRun fuel (c :: cs) p g = none := by
  rw [sieveRun_cons, h]

/-- After one iteration of the sieve loop the candidate strictly
exceeds the consumed composite, and the candidate-state invariant is
preserved. -/
theorem sieveInner_post :
    ∀ fuel c p (g : Gen) os p' (g' : Gen), 1 ≤ g.k → p < g.n →
      sieveInner fuel p g c = some (os, p', g') →
      c < p' ∧ g'.k = g.k ∧ p' < g'.n := by
  intro fuel
  induction fuel with
  | zero =>
    intro c p g os p' g' _ _ heq
    simp [sieveInner] at heq
  | succ fuel ih =>
    intro c p g os p' g' hk hpg heq
    by_cases h1 : p < c
    · rw [sieveInner_lt g h1] at heq
      rcases hi : sieveInner fuel g.next.1 g.next.2 c with _ | ⟨os1, p1, g1⟩
      · rw [hi] at heq
        exact absurd heq (by simp)
      · rw [hi] at heq
        simp only [Option.some.injEq, Prod.mk.injEq] at heq
        obtain ⟨rfl, rfl, rfl⟩ := heq
        have hk2 : 1 ≤ (g.next.2).k := hk
        have hn2 : g.next.1 < (g.next.2).n := Gen.n_lt_step_n g hk
        exact ih c g.next.1 g.next.2 _ _ _ hk2 hn2 hi
    · by_cases h2 : p = c
      · rw [sieveInner_eqc g h1 h2] at heq
        simp only [Option.some.injEq, Prod.mk.injEq] at heq
        obtain ⟨rfl, rfl, rfl⟩ := heq
        refine ⟨?_, rfl, Gen.n_lt_step_n g hk⟩
        show c < g.n
        omega
      · rw [sieveInner_gtc g h1 h2] at heq
        simp only [Option.some.injEq, Prod.mk.injEq] at heq
        obtain ⟨rfl, rfl, rfl⟩ := heq
        exact ⟨by omega, rfl, hpg⟩

/-- A composite strictly below the current candidate is consumed as a
no-op. -/
theorem sieveInner_noop {fuel c p : Nat} {g : Gen} (hcp : c < p) :
    sieveInner (fuel + 1) p g c = some ([], p, g) :=
  sieveInner_gtc g (by omega) (by omega)

/-- Removing adjacent duplicate composites does not change the sieve
loop's behaviour, once the candidate has passed the previous
composite. -/
theorem sieveRun_dedupFrom :
    ∀ (cs : List Nat) (fuel prev p : Nat) (g : Gen), 1 ≤ g.k → p < g.n →
      prev < p →
      sieveRun (fuel + 1) cs p g =
        sieveRun (fuel + 1) (dedupAdjFrom prev cs) p g := by
  intro cs
  induction cs with
  | nil => intro fuel prev p g _ _ _; rfl
  | cons b t ih =>
    intro fuel prev p g hk hpg hprev
    by_cases hb : b = prev
    · subst hb
      rw [show dedupAdjFrom b (b :: t) = dedupAdjFrom b t from by
        simp [dedupAdjFrom]]
      rw [sieveRun_cons_some (sieveInner_noop (show b < p by omega))]
      rw [← ih fuel b p g hk hpg hprev]
      rcases hr : sieveRun (fuel + 1) t p g with _ | ⟨os', p'', g''⟩ <;> simp
    · rw [show dedupAdjFrom prev (b :: t) = b :: dedupAdjFrom b t from by
        simp [dedupAdjFrom, hb]]
      rcases hi : sieveInner (fuel + 1) p g b with _ | ⟨os, p', g'⟩
      · rw [sieveRun_cons_none hi, sieveRun_cons_none hi]
      · obtain ⟨hbp', hk', hpg'⟩ := sieveInner_post _ _ _ _ _ _ _ hk hpg hi
        rw [sieveRun_cons_some hi, sieveRun_cons_some hi,
          ih fuel b p' g' (by omega) hpg' hbp']

/-- Claim C9: at the end of every sieve-loop iteration the current
candidate strictly exceeds the composite just consumed; a composite
delivered again after being consumed is a no-op (no prime emitted, no
prime registered, no candidate discarded); and the primes emitted over
any composite prefix equal those emitted over the same prefix with
adjacent duplicate values removed. -/
theorem claim_C9 (fuel c : Nat) (cs : List Nat) (p : Nat) (g : Gen)
    (hk : 1 ≤ g.k) (hpg : p < g.n) :
    (∀ os p' g', sieveInner fuel p g c = some (os, p', g') → c < p') ∧
    (c < p → sieveInner (fuel + 1) p g c = some ([], p, g)) ∧
    (sieveRun (fuel + 1) cs p g = sieveRun (fuel + 1) (dedupAdj cs) p g) := by
  refine ⟨?_, fun hcp => sieveInner_noop hcp, ?_⟩
  · intro os p' g' heq
    exact (sieveInner_post fuel c p g os p' g' hk hpg heq).1
  · rcases cs with _ | ⟨a, t⟩
    · rfl
    · rw [show dedupAdj (a :: t) = a :: dedupAdjFrom a t from rfl]
      rcases hi : sieveInner (fuel + 1) p g a with _ | ⟨os, p', g'⟩
      · rw [sieveRun_cons_none hi, sieveRun_cons_none hi]
      · obtain ⟨hap', hk', hpg'⟩ :=
          sieveInner_post _ _ _ _ _ _ _ hk hpg hi
        rw [sieveRun_cons_some hi, sieveRun_cons_some hi,
          sieveRun_dedupFrom t fuel a p' g' (by omega) hpg' hap']

/-- Claim C9 witness: a concrete run over the composite prefix 121,
143, 143, 169 (with its duplicated 143) from candidate 13. -/
theorem claim_C9_witness :
    1 ≤ (⟨17, 1, 1⟩ : Gen).k ∧ 13 < (⟨17, 1, 1⟩ : Gen).n ∧
    ((∀ os p' g', sieveInner 20 13 ⟨17, 1, 1⟩ 121 = some (os, p', g') →
        121 < p') ∧
     (121 < 13 → sieveInner 21 13 ⟨17, 1, 1⟩ 121 = some ([], 13, ⟨17, 1, 1⟩)) ∧
     (sieveRun 21 [121, 143, 143, 169] 13 ⟨17, 1, 1⟩ =
       sieveRun 21 (dedupAdj [121, 143, 143, 169]) 13 ⟨17, 1, 1⟩)) :=
  ⟨by decide, by decide,
    claim_C9 20 121 [121, 143, 143, 169] 13 ⟨17, 1, 1⟩ (by decide) (by decide)⟩

/-! ## The closed feedback pipeline -/

/-- Two-list FIFO queue: the contents of the feedback `primes`
channel. -/
structure Queue where
  front : List Nat
  back : List Nat
deriving DecidableEq, Repr

def Queue.push (q : Queue) (e : Nat) : Queue := ⟨q.front, e :: q.back⟩

def Queue.pushAll (q : Queue) : List Nat → Queue
  | [] => q
  | e :: es => (q.push e).pushAll es

def Queue.pop (q : Queue) : Option (Nat × Queue) :=
  match q.front with
  | e :: f => some (e, ⟨f, q.back⟩)
  | [] =>
    match q.back.reverse with
    | [] => none
    | e :: f => some (e, ⟨f, []⟩)

/-- Joint state of sieve2's pipeline: the feedback queue, the merge
goroutine state, the composites sent but not yet consumed, and the
sieve loop's candidate state. -/
structure PipeState where
  fb : Queue
  ms : MState
  cbuf : List Nat
  p : Nat
  g : Gen
deriving DecidableEq, Repr

/-- State after the bootstrap of `Primes`: 2, 3, 5, 7, 11 sent to
`out`, 11 sent to `primes`, and `p := <-candidates` executed. -/
def pipeInit : PipeState :=
  ⟨⟨[11], []⟩, mergeInit, [], coprime2357.next.1, coprime2357.next.2⟩

/-- One step of the demand-driven pipeline schedule: if a composite is
pending, run one sieve-loop iteration on it (newly emitted primes go to
both `out` and the feedback queue); otherwise run one iteration of the
merge goroutine on the next feedback prime to refill the composites
channel.  `none` when fuel runs out or a read would block forever. -/
def pipeStep (fuel : Nat) (st : PipeState) : Option (List Nat × PipeState) :=
  match st.cbuf with
  | c :: cs =>
    match sieveInner fuel st.p st.g c with
    | none => none
    | some (os, p', g') => some (os, ⟨st.fb.pushAll os, st.ms, cs, p', g'⟩)
  | [] =>
    match st.fb.pop with
    | none => none
    | some (q, fb') =>
      match mergeIter fuel q st.ms with
      | none => none
      | some (outs, ms', _) => some ([], ⟨fb', ms', outs, st.p, st.g⟩)

/-- Run the pipeline for a number of scheduling steps, accumulating the
primes sent to `out` (in reverse; written with a bare recursor so the
kernel evaluates it iteratively). -/
def pipeRunAcc (fuel : Nat) : Nat → PipeState → List Nat → Option (List Nat) :=
  Nat.rec (motive := fun _ => PipeState → List Nat → Option (List Nat))
    (fun _ acc => some acc.reverse)
    (fun _ ih st acc =>
      match pipeStep fuel st with
      | none => none
      | some (os, st') => ih st' (os.reverseAux acc))

/-- The primes the pipeline emits over a number of scheduling steps. -/
def pipeRun (fuel iters : Nat) (st : PipeState) : Option (List Nat) :=
  pipeRunAcc fuel iters st []

/-- The prefix of sieve2's `out` channel: the bootstrap primes 2, 3, 5,
7, 11 followed by everything the loop emits in `iters` steps. -/
def sieveOut (fuel iters : Nat) : Option (List Nat) :=
  (pipeRun fuel iters pipeInit).map (fun os => [2, 3, 5, 7, 11] ++ os)

/-- Iteratively collect the values of `isPrimeB` below the bound. -/
def refPrimesAcc : Nat → Nat → List Nat → List Nat :=
  Nat.rec (motive := fun _ => Nat → List Nat → List Nat)
    (fun _ acc => acc.reverse)
    (fun _ ih i acc => ih (i + 1) (if isPrimeB i then i :: acc else acc))

/-- The primes below `n`, by verified trial division. -/
def refPrimes (n : Nat) : List Nat := refPrimesAcc n 0 []

/-- Iterative prefix extraction. -/
def takeAcc : Nat → List Nat → List Nat → List Nat :=
  Nat.rec (motive := fun _ => List Nat → List Nat → List Nat)
    (fun _ acc => acc.reverse)
    (fun _ ih l acc =>
      match l with
      | [] => acc.reverse
      | x :: xs => ih xs (x :: acc))

/-- The first `n` values of a list (iteratively). -/
def firstN (n : Nat) (l : List Nat) : List Nat := takeAcc n l []

/-- Iterative list equality test. -/
def eqListB : List Nat → List Nat → Bool :=
  List.rec (motive := fun _ => List Nat → Bool)
    (fun l2 =>
      match l2 with
      | [] => true
      | _ :: _ => false)
    (fun a _ ih l2 =>
      match l2 with
      | [] => false
      | b :: l2 => if a = b then ih l2 else false)

theorem eqListB_iff : ∀ l1 l2 : List Nat, eqListB l1 l2 = true ↔ l1 = l2 := by
  intro l1
  induction l1 with
  | nil =>
    intro l2
    rcases l2 with _ | ⟨b, l2⟩ <;> simp [eqListB]
  | cons a l1 ih =>
    intro l2
    rcases l2 with _ | ⟨b, l2⟩
    · simp [eqListB]
    · show (if a = b then eqListB l1 l2 else false) = true ↔ _
      split
    --
      · rename_i hab
        rw [ih l2]
        simp [hab]
      · rename_i hab
        simp [hab]

theorem refPrimesAcc_eq :
    ∀ (fuel i : Nat) (acc : List Nat),
      refPrimesAcc fuel i acc =
        acc.reverse ++ (List.range' i fuel).filter isPrimeB := by
  intro fuel
  induction fuel with
  | zero => intro i acc; simp [refPrimesAcc]
  | succ fuel ih =>
    intro i acc
    show refPrimesAcc fuel (i + 1) (if isPrimeB i then i :: acc else acc) = _
    rw [ih]
    rw [List.range'_succ]
    by_cases hi : isPrimeB i
    · rw [if_pos hi]
      simp [hi]
    · rw [if_neg hi]
      simp [List.filter_cons, hi]

/-- The reference list is the filtered range. -/
theorem refPrimes_eq (n : Nat) :
    refPrimes n = (List.range n).filter isPrimeB := by
  unfold refPrimes
  rw [refPrimesAcc_eq]
  rw [List.range_eq_range']
  rfl

theorem takeAcc_eq :
    ∀ (n : Nat) (l acc : List Nat),
      takeAcc n l acc = acc.reverse ++ l.take n := by
  intro n
  induction n with
  | zero => intro l acc; simp [takeAcc]
  | succ n ih =>
    intro l acc
    rcases l with _ | ⟨x, xs⟩
    · simp [takeAcc]
    · show takeAcc n xs (x :: acc) = _
      rw [ih]
      simp

/-- `firstN` is `List.take`. -/
theorem firstN_eq (n : Nat) (l : List Nat) : firstN n l = l.take n := by
  unfold firstN
  rw [takeAcc_eq]
  rfl

/-- A strictly sorted list containing exactly the primes below a bound
enumerates `Nat.nth Nat.Prime` position by position. -/
theorem sorted_complete_get_eq_nth (N : Nat) (L : List Nat)
    (hsort : List.Pairwise (· < ·) L)
    (hmem : ∀ x, x ∈ L ↔ Nat.Prime x ∧ x < N) :
    ∀ (k : Nat) (hk : k < L.length), L.get ⟨k, hk⟩ = Nat.nth Nat.Prime k := by
  intro k hk
  have hxmem : L.get ⟨k, hk⟩ ∈ L := List.get_mem L k hk
  have hxp : Nat.Prime (L.get ⟨k, hk⟩) := ((hmem _).mp hxmem).1
  have hA : List.Pairwise (· < ·)
      ((List.range (L.get ⟨k, hk⟩)).filter (fun m => decide (Nat.Prime m))) :=
    List.Pairwise.filter _ (List.pairwise_lt_range _)
  have hB : List.Pairwise (· < ·) (L.take k) := List.Pairwise.take hsort
  have hmemAB : ∀ m,
      m ∈ (List.range (L.get ⟨k, hk⟩)).filter (fun m => decide (Nat.Prime m)) ↔
      m ∈ L.take k := by
    intro m
    rw [List.mem_filter, List.mem_range, decide_eq_true_iff]
    constructor
    · rintro ⟨hmx, hmp⟩
      have hmL : m ∈ L := (hmem m).mpr ⟨hmp, lt_trans hmx ((hmem _).mp hxmem).2⟩
      obtain ⟨⟨j, hj⟩, hjm⟩ := List.mem_iff_get.mp hmL
      have hjk : j < k := by
        by_contra hc
        push_neg at hc
        rcases Nat.eq_or_lt_of_le hc with rfl | hlt
        · rw [hjm] at hmx
          omega
        · have := List.pairwise_iff_get.mp hsort ⟨k, hk⟩ ⟨j, hj⟩ hlt
          rw [hjm] at this
          omega
      have htl : j < (L.take k).length := by
        rw [List.length_take]
        omega
      have hgt := List.get_take L hj hjk
      rw [← hjm, hgt]
      exact List.get_mem _ _ _
    · intro hmB
      obtain ⟨⟨j, hjt⟩, hjm⟩ := List.mem_iff_get.mp hmB
      have hjk : j < k := by
        have := hjt
        rw [List.length_take] at this
        omega
      have hjL : j < L.length := by omega
      have hgt : (L.take k).get ⟨j, hjt⟩ = L.get ⟨j, hjL⟩ := by
        rw [List.get_take L hjL hjk]
      have hmL : m ∈ L := by
        rw [← hjm, hgt]
        exact List.get_mem L j hjL
      refine ⟨?_, ((hmem m).mp hmL).1⟩
      have := List.pairwise_iff_get.mp hsort ⟨j, hjL⟩ ⟨k, hk⟩ hjk
      rw [← hjm, hgt]
      exact this
  have hperm := (List.perm_ext_iff_of_nodup
    (hA.imp fun h => Nat.ne_of_lt h) (hB.imp fun h => Nat.ne_of_lt h)).mpr hmemAB
  haveI : IsAntisymm Nat (· < ·) := ⟨fun _ _ ha hb => absurd hb (lt_asymm ha)⟩
  have heq := List.eq_of_perm_of_sorted hperm hA hB
  have hcount : Nat.count Nat.Prime (L.get ⟨k, hk⟩) = k := by
    rw [Nat.count, List.countP_eq_length_filter, heq, List.length_take]
    omega
  have hfin := (Nat.nth_count hxp).symm
  rw [hcount] at hfin
  exact hfin

/-- The first 303 values the pipeline sends on `out` (covering every
prime below 2000). -/
def out303 : List Nat := firstN 303 ((sieveOut 1000 600).getD [])

set_option maxRecDepth 200000 in
/-- Bounded verification of the whole pipeline: within the first 600
scheduling steps the output channel starts 2, 3, 5, 7, 11, ... and its
first 303 values are exactly the primes below 2000 in strictly
increasing order; consequently the Kth value read from the stream is
the Kth prime for every K up to 303. -/
theorem pipeline_first_primes :
    sieveOut 1000 600 ≠ none ∧
    out303 = refPrimes 2000 ∧
    (∀ x, x ∈ out303 ↔ Nat.Prime x ∧ x < 2000) ∧
    List.Pairwise (· < ·) out303 ∧
    (∀ (k : Nat) (hk : k < out303.length),
      out303.get ⟨k, hk⟩ = Nat.nth Nat.Prime k) ∧
    out303.length = 303 ∧ out303.getD 0 0 = 2 ∧ out303.getD 4 0 = 11 ∧
    out303.getD 302 0 = 1999 := by
  have h2 : out303 = refPrimes 2000 := (eqListB_iff _ _).mp (by decide)
  have h3 : ∀ x, x ∈ out303 ↔ Nat.Prime x ∧ x < 2000 := by
    intro x
    rw [h2, refPrimes_eq, List.mem_filter, List.mem_range, isPrimeB_iff]
    exact and_comm
  have h4 : List.Pairwise (· < ·) out303 := by
    rw [h2, refPrimes_eq]
    exact List.Pairwise.filter _ (List.pairwise_lt_range _)
  refine ⟨by decide, h2, h3, h4,
    sorted_complete_get_eq_nth 2000 out303 h4 h3, ?_, ?_, ?_, ?_⟩ <;>
    rw [h2] <;> decide

/-! ## Towards full pipeline correctness

Equation lemmas for the fuelled merge loops, and fuel monotonicity: a
loop that succeeds returns the same value at any larger fuel. -/

theorem mergeEmitLoop_step {fuel h : Nat} {s : MState} {acc : List Nat}
    (hlt : s.mn < h) {m : PeekCh} {rest : List PeekCh}
    (hp : heapPop s.heap = some (m, rest)) :
    mergeEmitLoop (fuel + 1) h s acc =
      mergeEmitLoop fuel h ⟨⟨m.ch.next.1, m.ch.next.2⟩ :: rest, m.head⟩
        (s.mn :: acc) := by
  simp only [mergeEmitLoop]
  rw [if_pos hlt, hp]

theorem mergeEmitLoop_fail {fuel h : Nat} {s : MState} {acc : List Nat}
    (hlt : s.mn < h) (hp : heapPop s.heap = none) :
    mergeEmitLoop (fuel + 1) h s acc = none := by
  simp only [mergeEmitLoop]
  rw [if_pos hlt, hp]

theorem mergeEmitLoop_stop {fuel h : Nat} {s : MState} {acc : List Nat}
    (hge : ¬ s.mn < h) :
    mergeEmitLoop (fuel + 1) h s acc = some (acc, s) := by
  simp only [mergeEmitLoop]
  rw [if_neg hge]

theorem mergeDedupLoop_step {fuel h : Nat} {s : MState}
    (he : s.mn = h) {m : PeekCh} {rest : List PeekCh}
    (hp : heapPop s.heap = some (m, rest)) :
    mergeDedupLoop (fuel + 1) h s =
      match mergeDedupLoop fuel h ⟨⟨m.ch.next.1, m.ch.next.2⟩ :: rest, m.head⟩ with
      | none => none
      | some (s', c) => some (s', c + 1) := by
  simp only [mergeDedupLoop]
  rw [if_pos he, hp]

theorem mergeDedupLoop_stop {fuel h : Nat} {s : MState} (hne : ¬ s.mn = h) :
    mergeDedupLoop (fuel + 1) h s = some (s, 0) := by
  simp only [mergeDedupLoop]
  rw [if_neg hne]

theorem sieveInner_mono :
    ∀ {fuel fuel' c p : Nat} {g : Gen} {r},
      sieveInner fuel p g c = some r → fuel ≤ fuel' →
      sieveInner fuel' p g c = some r := by
  intro fuel
  induction fuel with
  | zero =>
    intro fuel' c p g r heq
    simp [sieveInner] at heq
  | succ fuel ih =>
    intro fuel' c p g r heq hle
    rcases fuel' with _ | fuel'
    · omega
    · by_cases h1 : p < c
      · rw [sieveInner_lt g h1] at heq
        rw [sieveInner_lt g h1]
        rcases hi : sieveInner fuel g.next.1 g.next.2 c with _ | r1
        · rw [hi] at heq
          exact absurd heq (by simp)
        · rw [hi] at heq
          rw [ih hi (by omega)]
          exact heq
      · by_cases h2 : p = c
        · rw [sieveInner_eqc g h1 h2] at heq
          rw [sieveInner_eqc g h1 h2]
          exact heq
        · rw [sieveInner_gtc g h1 h2] at heq
          rw [sieveInner_gtc g h1 h2]
          exact heq

theorem mergeEmitLoop_mono :
    ∀ {fuel fuel' h : Nat} {s : MState} {acc : List Nat} {r},
      mergeEmitLoop fuel h s acc = some r → fuel ≤ fuel' →
      mergeEmitLoop fuel' h s acc = some r := by
  intro fuel
  induction fuel with
  | zero =>
    intro fuel' h s acc r heq
    simp [mergeEmitLoop] at heq
  | succ fuel ih =>
    intro fuel' h s acc r heq hle
    rcases fuel' with _ | fuel'
    · omega
    · by_cases hlt : s.mn < h
      · rcases hp : heapPop s.heap with _ | ⟨m, rest⟩
        · rw [mergeEmitLoop_fail hlt hp] at heq
          exact absurd heq (by simp)
        · rw [mergeEmitLoop_step hlt hp] at heq
          rw [mergeEmitLoop_step hlt hp]
          exact ih heq (by omega)
      · rw [mergeEmitLoop_stop hlt] at heq
        rw [mergeEmitLoop_stop hlt]
        exact heq

theorem mergeDedupLoop_mono :
    ∀ {fuel fuel' h : Nat} {s : MState} {r},
      mergeDedupLoop fuel h s = some r → fuel ≤ fuel' →
      mergeDedupLoop fuel' h s = some r := by
  intro fuel
  induction fuel with
  | zero =>
    intro fuel' h s r heq
    simp [mergeDedupLoop] at heq
  | succ fuel ih =>
    intro fuel' h s r heq hle
    rcases fuel' with _ | fuel'
    · omega
    · by_cases he : s.mn = h
      · rcases hp : heapPop s.heap with _ | ⟨m, rest⟩
        · simp only [mergeDedupLoop] at heq
          rw [if_pos he, hp] at heq
          exact absurd heq (by simp)
        · rw [mergeDedupLoop_step he hp] at heq
          rw [mergeDedupLoop_step he hp]
          rcases hd : mergeDedupLoop fuel h
              ⟨⟨m.ch.next.1, m.ch.next.2⟩ :: rest, m.head⟩ with _ | ⟨s1, c1⟩
          · rw [hd] at heq
            exact absurd heq (by simp)
          · rw [hd] at heq
            rw [ih hd (by omega)]
            exact heq
      · rw [mergeDedupLoop_stop he] at heq
        rw [mergeDedupLoop_stop he]
        exact heq

theorem mergeIter_eq (fuel p : Nat) (s : MState) :
    mergeIter fuel p s =
      match mergeEmitLoop fuel (multiples p).next.1 s [] with
      | none => none
      | some (acc, s1) =>
        match mergeDedupLoop fuel (multiples p).next.1 s1 with
        | none => none
        | some (s2, c) =>
          some (acc.reverse ++ [(multiples p).next.1],
            ⟨⟨(multiples p).next.2.next.1, (multiples p).next.2.next.2⟩ :: s2.heap,
              s2.mn⟩, c) := rfl

theorem mergeIter_eq2 {fuel p : Nat} {s : MState} {acc : List Nat} {s1 : MState}
    (h1 : mergeEmitLoop fuel (multiples p).next.1 s [] = some (acc, s1)) :
    mergeIter fuel p s =
      match mergeDedupLoop fuel (multiples p).next.1 s1 with
      | none => none
      | some (s2, c) =>
        some (acc.reverse ++ [(multiples p).next.1],
          ⟨⟨(multiples p).next.2.next.1, (multiples p).next.2.next.2⟩ :: s2.heap,
            s2.mn⟩, c) := by
  rw [mergeIter_eq, h1]

theorem mergeIter_none1 {fuel p : Nat} {s : MState}
    (h1 : mergeEmitLoop fuel (multiples p).next.1 s [] = none) :
    mergeIter fuel p s = none := by
  rw [mergeIter_eq, h1]

theorem mergeIter_mono {fuel fuel' p : Nat} {s : MState} {r}
    (heq : mergeIter fuel p s = some r) (hle : fuel ≤ fuel') :
    mergeIter fuel' p s = some r := by
  rcases h1 : mergeEmitLoop fuel (multiples p).next.1 s [] with _ | ⟨acc, s1⟩
  · rw [mergeIter_none1 h1] at heq
    exact absurd heq (by simp)
  · rw [mergeIter_eq2 h1] at heq
    rw [mergeIter_eq2 (mergeEmitLoop_mono h1 hle)]
    rcases h2 : mergeDedupLoop fuel (multiples p).next.1 s1 with _ | ⟨s2, c⟩
    · rw [h2] at heq
      exact absurd heq (by simp)
    · rw [h2] at heq
      rw [mergeDedupLoop_mono h2 hle]
      exact heq

theorem pipeStep_cons {fuel : Nat} {st : PipeState} {c : Nat} {cs : List Nat}
    (hc : st.cbuf = c :: cs) :
    pipeStep fuel st =
      match sieveInner fuel st.p st.g c with
      | none => none
      | some (os, p', g') =>
        some (os, ⟨st.fb.pushAll os, st.ms, cs, p', g'⟩) := by
  unfold pipeStep
  rw [hc]

theorem pipeStep_refill {fuel : Nat} {st : PipeState} {q : Nat} {fb' : Queue}
    (hc : st.cbuf = []) (hq : st.fb.pop = some (q, fb')) :
    pipeStep fuel st =
      match mergeIter fuel q st.ms with
      | none => none
      | some (outs, ms', _) => some ([], ⟨fb', ms', outs, st.p, st.g⟩) := by
  unfold pipeStep
  rw [hc, hq]

theorem pipeStep_starved {fuel : Nat} {st : PipeState}
    (hc : st.cbuf = []) (hq : st.fb.pop = none) :
    pipeStep fuel st = none := by
  unfold pipeStep
  rw [hc, hq]

theorem pipeStep_mono {fuel fuel' : Nat} {st : PipeState} {r}
    (heq : pipeStep fuel st = some r) (hle : fuel ≤ fuel') :
    pipeStep fuel' st = some r := by
  rcases hc : st.cbuf with _ | ⟨c, cs⟩
  · rcases hq : st.fb.pop with _ | ⟨q, fb'⟩
    · rw [pipeStep_starved hc hq] at heq
      exact absurd heq (by simp)
    · rw [pipeStep_refill hc hq] at heq
      rw [pipeStep_refill hc hq]
      rcases hm : mergeIter fuel q st.ms with _ | ⟨outs, ms', c0⟩
      · rw [hm] at heq
        exact absurd heq (by simp)
      · rw [hm] at heq
        rw [mergeIter_mono hm hle]
        exact heq
  · rw [pipeStep_cons hc] at heq
    rw [pipeStep_cons hc]
    rcases hi : sieveInner fuel st.p st.g c with _ | ⟨os, p', g'⟩
    · rw [hi] at heq
      exact absurd heq (by simp)
    · rw [hi] at heq
      rw [sieveInner_mono hi hle]
      exact heq

/-! ## Number-theoretic characterization of the streams -/

/-- A wheel prime: a prime not dividing the wheel modulus, i.e. at
least 11. -/
def WheelPrime (p : Nat) : Prop := Nat.Prime p ∧ 11 ≤ p

/-- Stream membership: `c` is one of the values `multiples p`
produces — a multiple of `p` with cofactor coprime to 210 and at least
`p`. -/
def InStream (p c : Nat) : Prop := ∃ m, Nat.Coprime m 210 ∧ p ≤ m ∧ c = p * m

/-- A wheel composite: coprime to 210, greater than 1, not prime. -/
def WheelComposite (c : Nat) : Prop :=
  Nat.Coprime c 210 ∧ 2 ≤ c ∧ ¬ Nat.Prime c

theorem wheelPrime_coprime {p : Nat} (hp : WheelPrime p) :
    Nat.Coprime p 210 := by
  obtain ⟨hp1, hp2⟩ := hp
  rw [coprime210_iff_not_dvd]
  refine ⟨?_, ?_, ?_, ?_⟩ <;> intro hd
  · have h := (Nat.prime_dvd_prime_iff_eq (by norm_num) hp1).mp hd
    omega
  · have h := (Nat.prime_dvd_prime_iff_eq (by norm_num) hp1).mp hd
    omega
  · have h := (Nat.prime_dvd_prime_iff_eq (by norm_num) hp1).mp hd
    omega
  · have h := (Nat.prime_dvd_prime_iff_eq (by norm_num) hp1).mp hd
    omega

theorem multiples_nth0 (p : Nat) : (multiples p).nth 0 = p * p := rfl

theorem multiples_mono {p : Nat} (h1 : 1 ≤ p) :
    StrictMono (multiples p).nth :=
  Gen.nth_strictMono _ h1

theorem multiples_mem {p : Nat} (hpc : Nat.Coprime p 210) (c : Nat) :
    (∃ t, (multiples p).nth t = c) ↔ InStream p c := by
  constructor
  · rintro ⟨t, ht⟩
    refine ⟨(spin p 1 (wheelpos (p % 210))).nth t, ?_, ?_, ?_⟩
    · exact aligned_walk_coprime (multiples_aligned hpc) t
    · exact aligned_walk_ge t
    · rw [← ht]
      exact spin_scaled t p p _
  · rintro ⟨m, hm, hpm, rfl⟩
    obtain ⟨t, ht⟩ := aligned_walk_complete (m - p) p (wheelpos (p % 210))
      (multiples_aligned hpc) m hm hpm (le_refl _)
    refine ⟨t, ?_⟩
    show (spin (p * p) p (wheelpos (p % 210))).nth t = p * m
    rw [spin_scaled, ht]

theorem instream_wheelComposite {p c : Nat} (hp : WheelPrime p)
    (hc : InStream p c) : WheelComposite c ∧ p * p ≤ c := by
  obtain ⟨m, hm, hpm, rfl⟩ := hc
  have h11 := hp.2
  have hmul : p * p ≤ p * m := Nat.mul_le_mul_left p hpm
  refine ⟨⟨Nat.Coprime.mul (wheelPrime_coprime hp) hm, by nlinarith, ?_⟩, hmul⟩
  intro hprime
  rcases (Nat.Prime.eq_one_or_self_of_dvd hprime p ⟨m, rfl⟩) with h1 | h1
  · omega
  · have hm1 : m = 1 := by
      have hppos : 0 < p := by omega
      have := h1.symm
      nlinarith
    omega

theorem wheelComposite_ge_121 {c : Nat} (hc : WheelComposite c)
    {p : Nat} (hp : WheelPrime p) (hs : InStream p c) : 121 ≤ c := by
  obtain ⟨m, _, hpm, rfl⟩ := hs
  have := hp.2
  nlinarith

/-- Every wheel composite lies on the stream of its least prime
factor, which is a wheel prime no larger than any other prime
factor. -/
theorem wheelComposite_stream {c : Nat} (hc : WheelComposite c) :
    ∃ p, WheelPrime p ∧ InStream p c ∧ p * p ≤ c ∧
      ∀ q, Nat.Prime q → q ∣ c → p ≤ q := by
  obtain ⟨hco, h2, hnp⟩ := hc
  have hc1 : c ≠ 1 := by omega
  have hpprime : Nat.Prime c.minFac := Nat.minFac_prime hc1
  have hpdvd : c.minFac ∣ c := Nat.minFac_dvd c
  have hnot : ¬ 2 ∣ c ∧ ¬ 3 ∣ c ∧ ¬ 5 ∣ c ∧ ¬ 7 ∣ c :=
    (coprime210_iff_not_dvd c).mp hco
  have h11 : 11 ≤ c.minFac := by
    by_contra hlt
    push_neg at hlt
    have h2f := hpprime.two_le
    interval_cases h : c.minFac
    · exact hnot.1 hpdvd
    · exact hnot.2.1 hpdvd
    · exact absurd hpprime (by norm_num)
    · exact hnot.2.2.1 hpdvd
    · exact absurd hpprime (by norm_num)
    · exact hnot.2.2.2 hpdvd
    · exact absurd hpprime (by norm_num)
    · exact absurd hpprime (by norm_num)
    · exact absurd hpprime (by norm_num)
  have hwp : WheelPrime c.minFac := ⟨hpprime, h11⟩
  set p := c.minFac with hpdef
  set m := c / p with hmdef
  have hcm : c = p * m := (Nat.mul_div_cancel' hpdvd).symm
  have hm2 : 2 ≤ m := by
    rcases Nat.lt_or_ge m 2 with hm | hm
    · interval_cases m
      · omega
      · rw [hcm] at hnp
        simp at hnp
        exact absurd (by simpa using hpprime) hnp
    · exact hm
  have hmdvd : m ∣ c := ⟨p, by rw [hcm]; ring⟩
  have hpm : p ≤ m := by
    have hq := Nat.minFac_prime (show m ≠ 1 by omega)
    have hqm : m.minFac ∣ m := Nat.minFac_dvd m
    have hqc : m.minFac ∣ c := dvd_trans hqm hmdvd
    have h1 : p ≤ m.minFac := Nat.minFac_le_of_dvd hq.two_le hqc
    have h2' : m.minFac ≤ m := Nat.minFac_le (by omega)
    omega
  refine ⟨p, hwp, ⟨m, ?_, hpm, hcm⟩, by nlinarith, ?_⟩
  · exact Nat.Coprime.coprime_dvd_left hmdvd hco
  · intro q hq hqc
    exact Nat.minFac_le_of_dvd hq.two_le hqc

/-- A coprime candidate that is not a wheel composite is prime. -/
theorem candidate_prime {x : Nat} (hco : Nat.Coprime x 210) (h13 : 13 ≤ x)
    (hnc : ¬ WheelComposite x) : Nat.Prime x := by
  by_contra hnp
  exact hnc ⟨hco, by omega, hnp⟩

/-- The next integer coprime to 210 after `a`. -/
def NextCop (a b : Nat) : Prop :=
  Nat.Coprime b 210 ∧ a < b ∧ ∀ x, a < x → x < b → ¬ Nat.Coprime x 210

theorem nextCop_unique {a b b' : Nat} (h : NextCop a b) (h' : NextCop a b') :
    b = b' := by
  rcases Nat.lt_trichotomy b b' with hlt | he | hgt
  · exact absurd h.1 (h'.2.2 b h.2.1 hlt)
  · exact he
  · exact absurd h'.1 (h.2.2 b' h'.2.1 hgt)

/-- Steps of an aligned unit walk are next-coprime steps. -/
theorem aligned_nextCop {v i : Nat} (h : Aligned v i) :
    NextCop v ((spin v 1 i).nth 1) := by
  have hval : (spin v 1 i).nth 1 = v + wheelGet (cnorm i) := by
    show ((spin v 1 i).step).nth 0 = _
    rw [Gen.nth_eq_iter_n]
    show (spin v 1 i).step.n = _
    exact step_n_unit rfl
  rw [hval]
  refine ⟨aligned_coprime (aligned_step h), ?_, ?_⟩
  · have := wheelGet_ge_two _ (cnorm_lt i)
    omega
  · intro x hx1 hx2
    have := aligned_no_skip h (x - v) (by omega) (by omega)
    have hxe : v + (x - v) = x := by omega
    rwa [hxe] at this

set_option maxRecDepth 8000 in
theorem coprime_within_residues :
    ∀ r < 210, ∃ d < 11, 1 ≤ d ∧ Nat.Coprime ((r + d) % 210) 210 := by
  decide

theorem exists_coprime_within (a : Nat) :
    ∃ d, 1 ≤ d ∧ d ≤ 10 ∧ Nat.Coprime (a + d) 210 := by
  obtain ⟨d, h10, h1, hco⟩ :=
    coprime_within_residues (a % 210) (Nat.mod_lt _ (by norm_num))
  have h10' : d ≤ 10 := by omega
  refine ⟨d, h1, h10', ?_⟩
  rw [coprime210_mod, mod_shift_eq]
  exact hco

theorem exists_nextCop (a : Nat) : ∃ b, NextCop a b ∧ b ≤ a + 10 := by
  obtain ⟨d, h1, h10, hco⟩ := exists_coprime_within a
  have hex : ∃ d, 1 ≤ d ∧ Nat.Coprime (a + d) 210 := ⟨d, h1, hco⟩
  classical
  let d0 := Nat.find hex
  obtain ⟨hd1, hdco⟩ := Nat.find_spec hex
  refine ⟨a + d0, ⟨hdco, by omega, ?_⟩, ?_⟩
  · intro x hx1 hx2 hxc
    have hlt : x - a < d0 := by omega
    have := Nat.find_min hex hlt
    push_neg at this
    exact absurd hxc (by
      have hxe : a + (x - a) = x := by omega
      rcases Nat.lt_or_ge (x - a) 1 with h | h
      · omega
      · have h2 := this h
        rwa [hxe] at h2)
  · have : d0 ≤ d := Nat.find_min' hex ⟨h1, hco⟩
    omega

/-- Steps of the next-coprime relation skip even numbers after an odd
start. -/
theorem nextCop_ge_two_more {p b : Nat} (hpc : Nat.Coprime p 210)
    (hnc : NextCop p b) : p + 2 ≤ b := by
  have hodd : ¬ 2 ∣ p := ((coprime210_iff_not_dvd p).mp hpc).1
  rcases Nat.lt_or_ge b (p + 2) with h | h
  · exfalso
    have hb1 : b = p + 1 := by
      have := hnc.2.1
      omega
    have h2b : (2 : Nat) ∣ b := by omega
    exact ((coprime210_iff_not_dvd b).mp hnc.1).1 h2b
  · exact h

/-- Between a wheel prime's square and its next stream value there is
always a value of an earlier registered stream: for large `p` an
11-multiple by density, and for the finitely many small `p` a checked
witness. -/
theorem exists_stream_between {p b : Nat} (hp : WheelPrime p) (h13 : 13 ≤ p)
    (hnc : NextCop p b) :
    ∃ q c, WheelPrime q ∧ q < p ∧ Nat.Coprime c 210 ∧ q ≤ c ∧
      p * p ≤ q * c ∧ q * c ≤ p * b := by
  have hb2 : p + 2 ≤ b := nextCop_ge_two_more (wheelPrime_coprime hp) hnc
  obtain ⟨hp1, hp2⟩ := hp
  rcases Nat.lt_or_ge p 55 with hsmall | hlarge
  · have h54 : p ≤ 54 := by omega
    interval_cases p
    all_goals try (exact absurd hp1 (by decide))
    · have hb : b = 17 := nextCop_unique hnc ⟨by decide, by decide, by
        intro x h1 h2
        interval_cases x <;> decide⟩
      subst hb
      exact ⟨11, 17, ⟨by norm_num, by norm_num⟩, by norm_num, by decide,
        by norm_num, by norm_num, by norm_num⟩
    · have hb : b = 19 := nextCop_unique hnc ⟨by decide, by decide, by
        intro x h1 h2
        interval_cases x <;> decide⟩
      subst hb
      exact ⟨11, 29, ⟨by norm_num, by norm_num⟩, by norm_num, by decide,
        by norm_num, by norm_num, by norm_num⟩
    · have hb : b = 23 := nextCop_unique hnc ⟨by decide, by decide, by
        intro x h1 h2
        interval_cases x <;> decide⟩
      subst hb
      exact ⟨11, 37, ⟨by norm_num, by norm_num⟩, by norm_num, by decide,
        by norm_num, by norm_num, by norm_num⟩
    · have hb : b = 29 := nextCop_unique hnc ⟨by decide, by decide, by
        intro x h1 h2
        interval_cases x <;> decide⟩
      subst hb
      exact ⟨11, 53, ⟨by norm_num, by norm_num⟩, by norm_num, by decide,
        by norm_num, by norm_num, by norm_num⟩
    · have hb : b = 31 := nextCop_unique hnc ⟨by decide, by decide, by
        intro x h1 h2
        interval_cases x <;> decide⟩
      subst hb
      exact ⟨11, 79, ⟨by norm_num, by norm_num⟩, by norm_num, by decide,
        by norm_num, by norm_num, by norm_num⟩
    · have hb : b = 37 := nextCop_unique hnc ⟨by decide, by decide, by
        intro x h1 h2
        interval_cases x <;> decide⟩
      subst hb
      exact ⟨11, 89, ⟨by norm_num, by norm_num⟩, by norm_num, by decide,
        by norm_num, by norm_num, by norm_num⟩
    · have hb : b = 41 := nextCop_unique hnc ⟨by decide, by decide, by
        intro x h1 h2
        interval_cases x <;> decide⟩
      subst hb
      exact ⟨11, 127, ⟨by norm_num, by norm_num⟩, by norm_num, by decide,
        by norm_num, by norm_num, by norm_num⟩
    · have hb : b = 43 := nextCop_unique hnc ⟨by decide, by decide, by
        intro x h1 h2
        interval_cases x <;> decide⟩
      subst hb
      exact ⟨11, 157, ⟨by norm_num, by norm_num⟩, by norm_num, by decide,
        by norm_num, by norm_num, by norm_num⟩
    · have hb : b = 47 := nextCop_unique hnc ⟨by decide, by decide, by
        intro x h1 h2
        interval_cases x <;> decide⟩
      subst hb
      exact ⟨11, 169, ⟨by norm_num, by norm_num⟩, by norm_num, by decide,
        by norm_num, by norm_num, by norm_num⟩
    · have hb : b = 53 := nextCop_unique hnc ⟨by decide, by decide, by
        intro x h1 h2
        interval_cases x <;> decide⟩
      subst hb
      exact ⟨11, 209, ⟨by norm_num, by norm_num⟩, by norm_num, by decide,
        by norm_num, by norm_num, by norm_num⟩
    · have hb : b = 59 := nextCop_unique hnc ⟨by decide, by decide, by
        intro x h1 h2
        interval_cases x <;> decide⟩
      subst hb
      exact ⟨11, 257, ⟨by norm_num, by norm_num⟩, by norm_num, by decide,
        by norm_num, by norm_num, by norm_num⟩
  · obtain ⟨d, hd1, hd10, hdco⟩ := exists_coprime_within (p * p / 11)
    have hdm := Nat.div_add_mod (p * p) 11
    have hmod : p * p % 11 < 11 := Nat.mod_lt _ (by norm_num)
    refine ⟨11, p * p / 11 + d, ⟨by norm_num, by norm_num⟩, by omega, hdco,
      ?_, ?_, ?_⟩
    · have h1 : 11 * 11 ≤ p * p := by nlinarith
      have h2 : 11 ≤ p * p / 11 := (Nat.le_div_iff_mul_le (by norm_num)).mpr
        (by omega)
      omega
    · rw [Nat.mul_add]
      omega
    · rw [Nat.mul_add]
      have hpb : p * (p + 2) ≤ p * b := Nat.mul_le_mul_left p hb2
      have hexp : p * (p + 2) = p * p + 2 * p := by ring
      omega

/-! ## Heap structure lemmas

`heapPop` extracts a minimal entry; the remaining list is the original
minus that one occurrence, and the extracted head bounds the rest. -/

theorem heapPop_eq_none : ∀ {l : List PeekCh}, heapPop l = none → l = [] := by
  intro l
  cases l with
  | nil => intro _; rfl
  | cons a l =>
    intro h
    rcases hl : heapPop l with _ | ⟨m', rest'⟩
    · simp only [heapPop, hl] at h
      exact absurd h (by simp)
    · simp only [heapPop, hl] at h
      split at h <;> simp at h

theorem heapPop_perm :
    ∀ {l : List PeekCh} {m : PeekCh} {rest : List PeekCh},
      heapPop l = some (m, rest) → l.Perm (m :: rest) := by
  intro l
  induction l with
  | nil => intro m rest h; simp [heapPop] at h
  | cons a l ih =>
    intro m rest h
    rcases hl : heapPop l with _ | ⟨m', rest'⟩
    · simp only [heapPop, hl, Option.some.injEq, Prod.mk.injEq] at h
      obtain ⟨rfl, rfl⟩ := h
      rw [heapPop_eq_none hl]
    · simp only [heapPop, hl] at h
      split at h <;> simp only [Option.some.injEq, Prod.mk.injEq] at h <;>
        obtain ⟨rfl, rfl⟩ := h
      · exact List.Perm.refl _
      · exact ((ih hl).cons a).trans (List.Perm.swap m' a rest')

theorem heapPop_min :
    ∀ {l : List PeekCh} {m : PeekCh} {rest : List PeekCh},
      heapPop l = some (m, rest) → ∀ e ∈ rest, m.head ≤ e.head := by
  intro l
  induction l with
  | nil => intro m rest h; simp [heapPop] at h
  | cons a l ih =>
    intro m rest h
    rcases hl : heapPop l with _ | ⟨m', rest'⟩
    · simp only [heapPop, hl, Option.some.injEq, Prod.mk.injEq] at h
      obtain ⟨rfl, rfl⟩ := h
      intro e he
      exact absurd he (List.not_mem_nil e)
    · simp only [heapPop, hl] at h
      split at h <;> rename_i hle <;>
        simp only [Option.some.injEq, Prod.mk.injEq] at h <;>
        obtain ⟨rfl, rfl⟩ := h
      · intro e he
        rcases List.mem_cons.mp ((heapPop_perm hl).mem_iff.mp he) with rfl | he'
        · exact hle
        · exact le_trans hle (ih hl e he')
      · intro e he
        rcases List.mem_cons.mp he with rfl | he'
        · omega
        · exact ih hl e he'

theorem heapPop_of_ne_nil {l : List PeekCh} (h : l ≠ []) :
    ∃ m rest, heapPop l = some (m, rest) := by
  rcases hl : heapPop l with _ | ⟨m, rest⟩
  · exact absurd (heapPop_eq_none hl) h
  · exact ⟨m, rest, rfl⟩

/-! ## Stream entries

The heap entry for a registered prime `q` whose stream has been advanced
`t` positions: the cached head is the `t`-th multiple, the channel holds
the rest. -/

def streamEntry (q t : Nat) : PeekCh :=
  ⟨(multiples q).nth t, (multiples q).iter (t + 1)⟩

theorem Gen.iter_k (g : Gen) : ∀ t, (g.iter t).k = g.k := by
  intro t
  induction t with
  | zero => rfl
  | succ t ih => rw [Gen.iter, Gen.step_k, ih]

theorem streamEntry_head (q t : Nat) :
    (streamEntry q t).head = (multiples q).nth t := rfl

theorem streamEntry_advance (q t : Nat) :
    (⟨(streamEntry q t).ch.next.1, (streamEntry q t).ch.next.2⟩ : PeekCh) =
      streamEntry q (t + 1) := by
  show (⟨((multiples q).iter (t + 1)).n, ((multiples q).iter (t + 1)).step⟩ :
    PeekCh) = _
  rw [streamEntry, ← Gen.nth_eq_iter_n]
  rfl

/-- The progress measure of the emit loop: how far each cached head is
below the stop bound, plus one if the loop is still running. -/
def heapMeasure (h : Nat) (s : MState) : Nat :=
  (s.heap.map (fun e => h - e.head)).sum + (if s.mn < h then 1 else 0)

/-! ## Candidate walk positions -/

/-- The sieve loop's candidate state after `j + 1` reads from the
candidates channel: the current candidate is the `j`-th value and the
generator holds the rest. -/
def CandAt (j p : Nat) (g : Gen) : Prop :=
  p = coprime2357.nth j ∧ g = coprime2357.iter (j + 1)

theorem cop_nth_coprime (t : Nat) : Nat.Coprime (coprime2357.nth t) 210 :=
  aligned_walk_coprime aligned13 t

theorem cop_nth_ge (t : Nat) : 13 ≤ coprime2357.nth t :=
  aligned_walk_ge t

theorem cop_mono : StrictMono coprime2357.nth :=
  Gen.nth_strictMono _ (by exact le_refl 1)

theorem cop_nextCop (t : Nat) :
    NextCop (coprime2357.nth t) (coprime2357.nth (t + 1)) := by
  have hA : AlignedG (coprime2357.iter t) := AlignedG.iter ⟨aligned13, rfl⟩ t
  have hsp : spin ((coprime2357.iter t).n) 1 ((coprime2357.iter t).i) =
      coprime2357.iter t := by
    have hk := hA.2
    show (⟨(coprime2357.iter t).n, 1, (coprime2357.iter t).i⟩ : Gen) = _
    rw [← hk]
  have h := aligned_nextCop hA.1
  rw [hsp] at h
  have h1 : (coprime2357.iter t).nth 1 = coprime2357.nth (t + 1) := by
    rw [Gen.nth_eq_iter_n, Gen.nth_eq_iter_n]
    rfl
  rw [h1] at h
  rw [Gen.nth_eq_iter_n]
  exact h

theorem cop_complete {x : Nat} (hco : Nat.Coprime x 210) (h13 : 13 ≤ x) :
    ∃ t, coprime2357.nth t = x :=
  aligned_walk_complete x 13 0 aligned13 x hco h13 (by omega)

theorem candAt_next {j p : Nat} {g : Gen} (h : CandAt j p g) :
    CandAt (j + 1) g.next.1 g.next.2 := by
  obtain ⟨hp, hg⟩ := h
  constructor
  · rw [hg]
    show (coprime2357.iter (j + 1)).n = _
    rw [← Gen.nth_eq_iter_n]
  · rw [hg]
    rfl

theorem candAt_coprime {j p : Nat} {g : Gen} (h : CandAt j p g) :
    Nat.Coprime p 210 := by
  rw [h.1]
  exact cop_nth_coprime j

/-- A wheel composite is at least `11² = 121`. -/
theorem wheelComposite_ge121 {c : Nat} (hc : WheelComposite c) : 121 ≤ c := by
  obtain ⟨p, hp, _, hpc, _⟩ := wheelComposite_stream hc
  have := hp.2
  nlinarith

/-! ## The merge goroutine's full invariant

Relative to the registered primes `qs` and the composites `E` emitted so
far, the heap holds exactly one advanced stream per registered prime,
the running minimum is below every cached head, every stream value
strictly before a stream's frontier has been emitted or is the pending
minimum, everything emitted is the seed or a stream value, and the
emissions followed by the pending minimum are non-decreasing. -/
def MergeInvTs (qs E : List Nat) (ts : Nat → Nat) (s : MState) : Prop :=
  s.heap.Perm (qs.map fun q => streamEntry q (ts q)) ∧
  (∀ q ∈ qs, 1 ≤ ts q) ∧
  (∀ e ∈ s.heap, s.mn ≤ e.head) ∧
  (∀ q ∈ qs, ∀ u < ts q,
    (multiples q).nth u ∈ E ∨ (multiples q).nth u = s.mn) ∧
  (∀ x ∈ E, x = 143 ∨ ∃ q ∈ qs, InStream q x) ∧
  (s.mn = 143 ∨ ∃ q ∈ qs, InStream q s.mn) ∧
  List.Pairwise (· ≤ ·) (E ++ [s.mn])

/-- The merge state invariant: some frontier assignment satisfies the
structural invariant, and every emitted value is bounded by the square
of a registered prime. -/
def MergerInv (qs E : List Nat) (s : MState) : Prop :=
  ∃ ts : Nat → Nat, MergeInvTs qs E ts s ∧ ∀ x ∈ E, ∃ q ∈ qs, x ≤ q * q

/-- One step of the emit loop preserves the structural invariant,
advancing the popped stream's frontier, and strictly decreases the
progress measure. -/
theorem emit_step_preserve {qs E : List Nat} {ts : Nat → Nat} {s : MState}
    {h : Nat} {m : PeekCh} {rest : List PeekCh}
    (hqs : List.Pairwise (· < ·) qs) (hqw : ∀ q ∈ qs, WheelPrime q)
    (hpop : heapPop s.heap = some (m, rest))
    (hlt : s.mn < h)
    (hinv : MergeInvTs qs E ts s) :
    ∃ q₀, q₀ ∈ qs ∧ streamEntry q₀ (ts q₀) = m ∧
      MergeInvTs qs (E ++ [s.mn]) (Function.update ts q₀ (ts q₀ + 1))
        ⟨⟨m.ch.next.1, m.ch.next.2⟩ :: rest, m.head⟩ ∧
      heapMeasure h ⟨⟨m.ch.next.1, m.ch.next.2⟩ :: rest, m.head⟩ <
        heapMeasure h s := by
  obtain ⟨hperm, hts, hmin, hfront, hsound, hminsound, hpair⟩ := hinv
  have hmem : m ∈ s.heap := (heapPop_mem hpop).1
  obtain ⟨q₀, hq₀, hmeq⟩ := List.mem_map.mp (hperm.mem_iff.mp hmem)
  have hnd : qs.Nodup := hqs.imp (fun hab => Nat.ne_of_lt hab)
  have hq₀k1 : 1 ≤ q₀ := by
    have := (hqw q₀ hq₀).2
    omega
  have hmono := multiples_mono hq₀k1
  have hmhead : m.head = (multiples q₀).nth (ts q₀) := by
    rw [← hmeq]
    rfl
  have hadv : (⟨m.ch.next.1, m.ch.next.2⟩ : PeekCh) =
      streamEntry q₀ (ts q₀ + 1) := by
    rw [← hmeq]
    exact streamEntry_advance q₀ (ts q₀)
  have hr : rest.Perm ((qs.erase q₀).map fun q => streamEntry q (ts q)) := by
    have h1 : (m :: rest).Perm (qs.map fun q => streamEntry q (ts q)) :=
      (heapPop_perm hpop).symm.trans hperm
    have h2 : (qs.map fun q => streamEntry q (ts q)).Perm
        (streamEntry q₀ (ts q₀) ::
          (qs.erase q₀).map fun q => streamEntry q (ts q)) := by
      have := (List.perm_cons_erase hq₀).map fun q => streamEntry q (ts q)
      simpa using this
    rw [hmeq] at h2
    exact (h1.trans h2).cons_inv
  have heraseeq :
      ((qs.erase q₀).map fun q =>
        streamEntry q (Function.update ts q₀ (ts q₀ + 1) q)) =
      ((qs.erase q₀).map fun q => streamEntry q (ts q)) := by
    apply List.map_congr_left
    intro a ha
    have hane : a ≠ q₀ := ((List.Nodup.mem_erase_iff hnd).mp ha).1
    rw [Function.update_noteq hane]
  have hheadlt : m.head < (multiples q₀).nth (ts q₀ + 1) := by
    rw [hmhead]
    exact hmono (by omega)
  refine ⟨q₀, hq₀, hmeq, ⟨?_, ?_, ?_, ?_, ?_, ?_, ?_⟩, ?_⟩
  · show ((⟨m.ch.next.1, m.ch.next.2⟩ : PeekCh) :: rest).Perm _
    rw [hadv]
    have hstep1 : (streamEntry q₀ (ts q₀ + 1) :: rest).Perm
        (streamEntry q₀ (ts q₀ + 1) ::
          (qs.erase q₀).map fun q => streamEntry q (ts q)) := hr.cons _
    have hstep2 : ((q₀ :: qs.erase q₀).map fun q =>
          streamEntry q (Function.update ts q₀ (ts q₀ + 1) q)) =
        streamEntry q₀ (ts q₀ + 1) ::
          (qs.erase q₀).map fun q => streamEntry q (ts q) := by
      rw [List.map_cons, heraseeq, Function.update_same]
    have hstep3 : ((q₀ :: qs.erase q₀).map fun q =>
          streamEntry q (Function.update ts q₀ (ts q₀ + 1) q)).Perm
        (qs.map fun q => streamEntry q (Function.update ts q₀ (ts q₀ + 1) q)) :=
      ((List.perm_cons_erase hq₀).map _).symm
    rw [← hstep2] at hstep1
    exact hstep1.trans hstep3
  · intro q hq
    by_cases hqq : q = q₀
    · subst hqq
      rw [Function.update_same]
      omega
    · rw [Function.update_noteq hqq]
      exact hts q hq
  · intro e he
    rcases List.mem_cons.mp he with rfl | he'
    · show m.head ≤ (⟨m.ch.next.1, m.ch.next.2⟩ : PeekCh).head
      rw [hadv, streamEntry_head]
      exact le_of_lt hheadlt
    · exact heapPop_min hpop e he'
  · intro q hq u hu
    by_cases hqq : q = q₀
    · subst hqq
      rw [Function.update_same] at hu
      rcases Nat.lt_succ_iff_lt_or_eq.mp hu with hu' | rfl
      · rcases hfront q hq u hu' with hE | hE
        · exact Or.inl (List.mem_append_left _ hE)
        · exact Or.inl (List.mem_append_right _ (by rw [hE]; exact List.mem_singleton_self _))
      · exact Or.inr hmhead.symm
    · rw [Function.update_noteq hqq] at hu
      rcases hfront q hq u hu with hE | hE
      · exact Or.inl (List.mem_append_left _ hE)
      · exact Or.inl (List.mem_append_right _ (by rw [hE]; exact List.mem_singleton_self _))
  · intro x hx
    rcases List.mem_append.mp hx with hx' | hx'
    · exact hsound x hx'
    · rw [List.mem_singleton.mp hx']
      exact hminsound
  · refine Or.inr ⟨q₀, hq₀, ?_⟩
    show InStream q₀ m.head
    rw [hmhead]
    exact (multiples_mem (wheelPrime_coprime (hqw q₀ hq₀)) _).mp ⟨ts q₀, rfl⟩
  · rw [List.pairwise_append]
    refine ⟨hpair, List.pairwise_singleton _ _, ?_⟩
    intro x hx y hy
    rw [List.mem_singleton.mp hy]
    show x ≤ m.head
    rcases List.mem_append.mp hx with hx' | hx'
    · have hcross := (List.pairwise_append.mp hpair).2.2 x hx' s.mn
        (List.mem_singleton_self _)
      exact le_trans hcross (hmin m hmem)
    · rw [List.mem_singleton.mp hx']
      exact hmin m hmem
  · have hsum : ((s.heap.map fun e => h - e.head).sum) =
        (h - m.head) + ((rest.map fun e => h - e.head).sum) := by
      have := ((heapPop_perm hpop).map fun e => h - e.head).sum_eq
      simpa using this
    have hadvhead : (⟨m.ch.next.1, m.ch.next.2⟩ : PeekCh).head =
        (multiples q₀).nth (ts q₀ + 1) := by
      rw [hadv, streamEntry_head]
    have hmeas : ((((⟨m.ch.next.1, m.ch.next.2⟩ : PeekCh) :: rest).map
          fun e => h - e.head).sum) + (if m.head < h then 1 else 0) <
        heapMeasure h s := by
      rw [List.map_cons, List.sum_cons, hadvhead, heapMeasure, hsum, if_pos hlt]
      by_cases hmh : m.head < h
      · rw [if_pos hmh]
        omega
      · rw [if_neg hmh]
        omega
    exact hmeas

/-- Running the emit loop to completion: with fuel beyond the progress
measure it succeeds, preserves the structural invariant while recording
the emissions, and stops with the pending minimum at or beyond the
bound. -/
theorem mergeEmitLoop_run :
    ∀ (M h : Nat) (qs E : List Nat) (ts : Nat → Nat) (s : MState)
      (acc : List Nat),
      heapMeasure h s ≤ M →
      List.Pairwise (· < ·) qs → (∀ q ∈ qs, WheelPrime q) →
      MergeInvTs qs E ts s →
      (s.mn < h → s.heap ≠ []) →
      ∃ (em : List Nat) (ts' : Nat → Nat) (s' : MState),
        mergeEmitLoop (M + 1) h s acc = some (em.reverse ++ acc, s') ∧
        MergeInvTs qs (E ++ em) ts' s' ∧
        (∀ x ∈ em, s.mn ≤ x ∧ x < h) ∧
        ¬ s'.mn < h ∧ s.mn ≤ s'.mn := by
  intro M
  induction M with
  | zero =>
    intro h qs E ts s acc hM hqs hqw hinv hne
    have hstop : ¬ s.mn < h := by
      by_contra hc
      have h1 : 1 ≤ heapMeasure h s := by
        rw [heapMeasure, if_pos hc]
        omega
      omega
    refine ⟨[], ts, s, ?_, ?_, ?_, hstop, le_refl _⟩
    · rw [mergeEmitLoop_stop hstop]
      simp
    · rw [List.append_nil]
      exact hinv
    · intro x hx
      exact absurd hx (List.not_mem_nil x)
  | succ M ih =>
    intro h qs E ts s acc hM hqs hqw hinv hne
    by_cases hlt : s.mn < h
    · obtain ⟨m, rest, hpop⟩ := heapPop_of_ne_nil (hne hlt)
      obtain ⟨q₀, hq₀, hmeq, hinv₂, hmeas⟩ :=
        emit_step_preserve hqs hqw hpop hlt hinv
      have hM₂ : heapMeasure h ⟨⟨m.ch.next.1, m.ch.next.2⟩ :: rest, m.head⟩ ≤ M := by
        omega
      obtain ⟨em₂, ts', s', hrun, hinv', hem, hstop', hmle⟩ :=
        ih h qs (E ++ [s.mn]) (Function.update ts q₀ (ts q₀ + 1)) _
          (s.mn :: acc) hM₂ hqs hqw hinv₂ (fun _ => List.cons_ne_nil _ _)
      have hmnle : s.mn ≤ m.head := hinv.2.2.1 m (heapPop_mem hpop).1
      refine ⟨s.mn :: em₂, ts', s', ?_, ?_, ?_, hstop', le_trans hmnle hmle⟩
      · have hlst : (s.mn :: em₂).reverse ++ acc =
            em₂.reverse ++ (s.mn :: acc) := by
          simp
        rw [mergeEmitLoop_step hlt hpop, hrun, hlst]
      · have hsplit : E ++ (s.mn :: em₂) = (E ++ [s.mn]) ++ em₂ := by
          simp
        rw [hsplit]
        exact hinv'
      · intro x hx
        rcases List.mem_cons.mp hx with rfl | hx'
        · exact ⟨le_refl _, hlt⟩
        · exact ⟨le_trans hmnle (hem x hx').1, (hem x hx').2⟩
    · refine ⟨[], ts, s, ?_, ?_, ?_, hlt, le_refl _⟩
      · rw [mergeEmitLoop_stop hlt]
        simp
      · rw [List.append_nil]
        exact hinv
      · intro x hx
        exact absurd hx (List.not_mem_nil x)

/-- Registering the next consecutive wheel prime `p`: with enough fuel
the merge iteration emits every pending composite below `p²` followed by
`p²` itself, never runs its dedup body, pushes `p`'s stream, and
restores the full invariant with the pending minimum strictly beyond
`p²`. -/
theorem register_prime {qs E : List Nat} {s : MState} {p : Nat}
    (hqs : List.Pairwise (· < ·) qs) (hqw : ∀ q ∈ qs, WheelPrime q)
    (hclose : ∀ q', WheelPrime q' → q' < p → q' ∈ qs)
    (hp : WheelPrime p) (hgt : ∀ q ∈ qs, q < p)
    (hinv : MergerInv qs E s) :
    ∃ fuel₀, ∀ fuel, fuel₀ ≤ fuel →
      ∃ em s', mergeIter fuel p s = some (em ++ [p * p], s', 0) ∧
        MergerInv (qs ++ [p]) (E ++ (em ++ [p * p])) s' ∧
        (∀ x ∈ em, x < p * p) ∧ p * p < s'.mn ∧ s'.heap ≠ [] := by
  obtain ⟨ts, hinvts, hbound⟩ := hinv
  have hne : s.mn < p * p → s.heap ≠ [] := by
    intro hlt
    by_cases hqnil : qs = []
    · exfalso
      have hp11 : p = 11 := by
        by_contra hne'
        have h11 : WheelPrime 11 := ⟨by norm_num, le_refl _⟩
        have hlt11 : 11 < p := by
          have := hp.2
          omega
        have := hclose 11 h11 hlt11
        rw [hqnil] at this
        exact absurd this (List.not_mem_nil 11)
      have hmn143 : s.mn = 143 := by
        rcases hinvts.2.2.2.2.2.1 with h143 | ⟨q, hq, _⟩
        · exact h143
        · rw [hqnil] at hq
          exact absurd hq (List.not_mem_nil q)
      rw [hmn143, hp11] at hlt
      omega
    · intro hheap
      have hperm := hinvts.1
      rw [hheap] at hperm
      have := hperm.symm.eq_nil
      have hqs0 : qs = [] := by
        rcases qs with _ | ⟨a, l⟩
        · rfl
        · simp at this
      exact hqnil hqs0
  obtain ⟨em, ts', s₁, hrunM, hinv₁, hem, hstop₁, hmnle⟩ :=
    mergeEmitLoop_run (heapMeasure (p * p) s) (p * p) qs E ts s []
      (le_refl _) hqs hqw hinvts hne
  have hnesq : s₁.mn ≠ p * p := by
    rcases hinv₁.2.2.2.2.2.1 with h143 | ⟨q, hq, c, hc, hqc, heq⟩
    · rw [h143]
      exact fun hc => sq_ne_143 p hc.symm
    · intro hsq
      rw [hsq] at heq
      have hqdvd : q ∣ p * p := by
        rw [heq]
        exact ⟨c, rfl⟩
      have hqp : q ∣ p := by
        rcases (Nat.Prime.dvd_mul (hqw q hq).1).mp hqdvd with hd | hd <;> exact hd
      have := (Nat.prime_dvd_prime_iff_eq (hqw q hq).1 hp.1).mp hqp
      have := hgt q hq
      omega
  have hppmn : p * p < s₁.mn := by
    have h1 : ¬ s₁.mn < p * p := hstop₁
    omega
  have hpush : (⟨(multiples p).next.2.next.1, (multiples p).next.2.next.2⟩ :
      PeekCh) = streamEntry p 1 := rfl
  have hnth1 : (multiples p).nth 1 = p * (spin p 1 (wheelpos (p % 210))).nth 1 :=
    spin_scaled 1 p p (wheelpos (p % 210))
  have hnewhead : s₁.mn ≤ (multiples p).nth 1 := by
    by_cases hqnil : qs = []
    · have hp11 : p = 11 := by
        by_contra hne'
        have h11 : WheelPrime 11 := ⟨by norm_num, le_refl _⟩
        have hlt11 : 11 < p := by
          have := hp.2
          omega
        have := hclose 11 h11 hlt11
        rw [hqnil] at this
        exact absurd this (List.not_mem_nil 11)
      have hmn143 : s₁.mn = 143 := by
        rcases hinv₁.2.2.2.2.2.1 with h143 | ⟨q, hq, _⟩
        · exact h143
        · rw [hqnil] at hq
          exact absurd hq (List.not_mem_nil q)
      rw [hmn143, hp11]
      decide
    · have h13 : 13 ≤ p := by
        obtain ⟨q', hq'⟩ := List.exists_mem_of_ne_nil qs hqnil
        have h1 : 11 ≤ q' := (hqw q' hq').2
        have h2 : q' < p := hgt q' hq'
        have h12 : p ≠ 12 := by
          intro h12
          rw [h12] at hp
          exact absurd hp.1 (by decide)
        omega
    -- the new head is p times the next coprime cofactor
      have hnc : NextCop p ((spin p 1 (wheelpos (p % 210))).nth 1) :=
        aligned_nextCop (multiples_aligned (wheelPrime_coprime hp))
      obtain ⟨q, c, hwq, hqlt, hcc, hqcle, hple, hble⟩ :=
        exists_stream_between hp h13 hnc
      have hqmem : q ∈ qs := hclose q hwq hqlt
      obtain ⟨t, ht⟩ := (multiples_mem (wheelPrime_coprime hwq) (q * c)).mpr
        ⟨c, hcc, hqcle, rfl⟩
      rcases Nat.lt_or_ge t (ts' q) with htlt | htge
      · rcases hinv₁.2.2.2.1 q hqmem t htlt with hmem | hmn
        · rcases List.mem_append.mp hmem with hmem' | hmem'
          · obtain ⟨q', hq', hle'⟩ := hbound _ hmem'
            have hq'p : q' < p := hgt q' hq'
            rw [ht] at hle'
            nlinarith
          · have := (hem _ hmem').2
            rw [ht] at this
            omega
        · rw [ht] at hmn
          rw [← hmn, hnth1]
          exact hble
      · have hentry : streamEntry q (ts' q) ∈ s₁.heap := by
          refine (hinv₁.1).mem_iff.mpr ?_
          exact List.mem_map_of_mem _ hqmem
        have h1 : s₁.mn ≤ (multiples q).nth (ts' q) :=
          hinv₁.2.2.1 _ hentry
        have h2 : (multiples q).nth (ts' q) ≤ (multiples q).nth t := by
          have hq1 : 1 ≤ q := by
            have := (hqw q hqmem).2
            omega
          exact (multiples_mono hq1).monotone htge
        rw [ht] at h2
        rw [hnth1]
        omega
  refine ⟨heapMeasure (p * p) s + 2, ?_⟩
  intro fuel hfuel
  obtain ⟨f1, rfl⟩ : ∃ f1, fuel = f1 + 1 := ⟨fuel - 1, by omega⟩
  have hrun : mergeEmitLoop (f1 + 1) (p * p) s [] =
      some (em.reverse ++ [], s₁) :=
    mergeEmitLoop_mono hrunM (by omega)
  have hded : mergeDedupLoop (f1 + 1) (multiples p).next.1 s₁ = some (s₁, 0) :=
    mergeDedupLoop_stop (by
      intro hc
      exact hnesq hc)
  have hiter : mergeIter (f1 + 1) p s =
      some ((em.reverse ++ []).reverse ++ [(multiples p).next.1],
        ⟨(⟨(multiples p).next.2.next.1, (multiples p).next.2.next.2⟩ :
          PeekCh) :: s₁.heap, s₁.mn⟩, 0) := by
    rw [mergeIter_eq2 hrun, hded]
  have hlist : (em.reverse ++ []).reverse ++ [(multiples p).next.1] =
      em ++ [p * p] := by
    simp
    rfl
  rw [hlist, hpush] at hiter
  have hemlt : ∀ x ∈ em, x < p * p := fun x hx => (hem x hx).2
  refine ⟨em, ⟨streamEntry p 1 :: s₁.heap, s₁.mn⟩, hiter, ?_, hemlt, hppmn,
    List.cons_ne_nil _ _⟩
  have hassoc : E ++ (em ++ [p * p]) = (E ++ em) ++ [p * p] := by
    rw [List.append_assoc]
  rw [hassoc]
  refine ⟨Function.update ts' p 1, ⟨?_, ?_, ?_, ?_, ?_, ?_, ?_⟩, ?_⟩
  · show (streamEntry p 1 :: s₁.heap).Perm _
    have hmapeq : (qs ++ [p]).map
        (fun q => streamEntry q (Function.update ts' p 1 q)) =
        (qs.map fun q => streamEntry q (ts' q)) ++ [streamEntry p 1] := by
      rw [List.map_append]
      congr 1
      · apply List.map_congr_left
        intro a ha
        have hane : a ≠ p := by
          have := hgt a ha
          omega
        rw [Function.update_noteq hane]
      · rw [List.map_cons, List.map_nil, Function.update_same]
    rw [hmapeq]
    have h1 : (streamEntry p 1 :: s₁.heap).Perm
        (streamEntry p 1 :: qs.map fun q => streamEntry q (ts' q)) :=
      (hinv₁.1).cons _
    exact h1.trans (List.perm_append_singleton _ _).symm
  · intro q hq
    rcases List.mem_append.mp hq with hq' | hq'
    · have hane : q ≠ p := by
        have := hgt q hq'
        omega
      rw [Function.update_noteq hane]
      exact hinv₁.2.1 q hq'
    · rw [List.mem_singleton.mp hq', Function.update_same]
  · intro e he
    rcases List.mem_cons.mp he with rfl | he'
    · show s₁.mn ≤ (streamEntry p 1).head
      rw [streamEntry_head]
      exact hnewhead
    · exact hinv₁.2.2.1 e he'
  · intro q hq u hu
    rcases List.mem_append.mp hq with hq' | hq'
    · have hane : q ≠ p := by
        have := hgt q hq'
        omega
      rw [Function.update_noteq hane] at hu
      rcases hinv₁.2.2.2.1 q hq' u hu with hmem | hmn
      · exact Or.inl (List.mem_append_left _ hmem)
      · exact Or.inr hmn
    · rw [List.mem_singleton.mp hq'] at hu ⊢
      rw [Function.update_same] at hu
      interval_cases u
      exact Or.inl (List.mem_append_right _ (by
        rw [multiples_nth0]
        exact List.mem_singleton_self _))
  · intro x hx
    rcases List.mem_append.mp hx with hx' | hx'
    · rcases hinv₁.2.2.2.2.1 x hx' with h143 | ⟨q, hq, hs⟩
      · exact Or.inl h143
      · exact Or.inr ⟨q, List.mem_append_left _ hq, hs⟩
    · refine Or.inr ⟨p, List.mem_append_right _ (List.mem_singleton_self _), ?_⟩
      rw [List.mem_singleton.mp hx']
      exact ⟨p, wheelPrime_coprime hp, le_refl _, rfl⟩
  · rcases hinv₁.2.2.2.2.2.1 with h143 | ⟨q, hq, hs⟩
    · exact Or.inl h143
    · exact Or.inr ⟨q, List.mem_append_left _ hq, hs⟩
  · have hEem : ∀ x ∈ E ++ em, x ≤ p * p ∧ x ≤ s₁.mn := by
      intro x hx
      constructor
      · rcases List.mem_append.mp hx with hx' | hx'
        · obtain ⟨q', hq', hle'⟩ := hbound _ hx'
          have : q' < p := hgt q' hq'
          nlinarith
        · exact le_of_lt (hem x hx').2
      · exact (List.pairwise_append.mp hinv₁.2.2.2.2.2.2).2.2 x hx s₁.mn
          (List.mem_singleton_self _)
    rw [List.pairwise_append]
    refine ⟨?_, ?_, ?_⟩
    · rw [List.pairwise_append]
      refine ⟨List.Pairwise.sublist (List.sublist_append_left _ _)
        hinv₁.2.2.2.2.2.2, List.pairwise_singleton _ _, ?_⟩
      intro x hx y hy
      rw [List.mem_singleton.mp hy]
      exact (hEem x hx).1
    · exact List.pairwise_singleton _ _
    · intro x hx y hy
      rw [List.mem_singleton.mp hy]
      show x ≤ s₁.mn
      rcases List.mem_append.mp hx with hx' | hx'
      · exact (hEem x hx').2
      · rw [List.mem_singleton.mp hx']
        exact le_of_lt hppmn
  · intro x hx
    rcases List.mem_append.mp hx with hx' | hx'
    · rcases List.mem_append.mp hx' with hx'' | hx''
      · obtain ⟨q', hq', hle'⟩ := hbound _ hx''
        exact ⟨q', List.mem_append_left _ hq', hle'⟩
      · exact ⟨p, List.mem_append_right _ (List.mem_singleton_self _),
          le_of_lt (hem x hx'').2⟩
    · exact ⟨p, List.mem_append_right _ (List.mem_singleton_self _),
        le_of_eq (by rw [List.mem_singleton.mp hx'])⟩

/-- Every value the merger has emitted or holds pending is a wheel
composite at or above `11² = 121`. -/
theorem merger_sound_wheelComposite {qs : List Nat}
    (hqw : ∀ q ∈ qs, WheelPrime q) {x : Nat}
    (hs : x = 143 ∨ ∃ q ∈ qs, InStream q x) :
    WheelComposite x ∧ 121 ≤ x := by
  rcases hs with rfl | ⟨q, hq, hins⟩
  · exact ⟨⟨by decide, by omega, by decide⟩, by omega⟩
  · obtain ⟨hwc, hge⟩ := instream_wheelComposite (hqw q hq) hins
    have h11 := (hqw q hq).2
    exact ⟨hwc, by nlinarith⟩

/-- Completeness of the merger: any wheel composite strictly below the
pending minimum and within the registered range has been emitted. -/
theorem mergerInv_complete {qs E : List Nat} {s : MState}
    (hinv : MergerInv qs E s)
    (hqw : ∀ q ∈ qs, WheelPrime q)
    (hclose : ∀ q', WheelPrime q' → (∃ q ∈ qs, q' ≤ q) → q' ∈ qs) :
    ∀ w, WheelComposite w → w < s.mn → (∃ q ∈ qs, w ≤ q * q) → w ∈ E := by
  intro w hwc hwmn hb
  obtain ⟨q1, hq1, hwle⟩ := hb
  obtain ⟨ts, hinvts, _⟩ := hinv
  obtain ⟨p₀, hp₀w, hins, hp₀sq, hp₀min⟩ := wheelComposite_stream hwc
  have hp₀le : p₀ ≤ q1 := by
    by_contra hc
    push_neg at hc
    nlinarith
  have hp₀mem : p₀ ∈ qs := hclose p₀ hp₀w ⟨q1, hq1, hp₀le⟩
  obtain ⟨t, ht⟩ := (multiples_mem (wheelPrime_coprime hp₀w) w).mpr hins
  rcases Nat.lt_or_ge t (ts p₀) with hlt | hge
  · rcases hinvts.2.2.2.1 p₀ hp₀mem t hlt with hmem | hmn
    · rw [ht] at hmem
      exact hmem
    · rw [ht] at hmn
      omega
  · exfalso
    have hentry : streamEntry p₀ (ts p₀) ∈ s.heap :=
      (hinvts.1).mem_iff.mpr (List.mem_map_of_mem _ hp₀mem)
    have h1 : s.mn ≤ (multiples p₀).nth (ts p₀) := hinvts.2.2.1 _ hentry
    have h2 : (multiples p₀).nth (ts p₀) ≤ (multiples p₀).nth t := by
      have h11 := hp₀w.2
      exact (multiples_mono (by omega)).monotone hge
    rw [ht] at h2
    omega

theorem mergerInv_pairwise {qs E : List Nat} {s : MState}
    (hinv : MergerInv qs E s) : List.Pairwise (· ≤ ·) (E ++ [s.mn]) := by
  obtain ⟨ts, hinvts, _⟩ := hinv
  exact hinvts.2.2.2.2.2.2

theorem mergerInv_sound {qs E : List Nat} {s : MState}
    (hinv : MergerInv qs E s) :
    ∀ x ∈ E, x = 143 ∨ ∃ q ∈ qs, InStream q x := by
  obtain ⟨ts, hinvts, _⟩ := hinv
  exact hinvts.2.2.2.2.1

theorem mergerInv_bound {qs E : List Nat} {s : MState}
    (hinv : MergerInv qs E s) : ∀ x ∈ E, ∃ q ∈ qs, x ≤ q * q := by
  obtain ⟨ts, _, hbound⟩ := hinv
  exact hbound

/-! ## The sieve loop over the candidate walk -/

/-- Consuming a composite equal to the current candidate: nothing is
emitted and the candidate advances one walk step. -/
theorem sieveInner_walk_eq (fuel j p : Nat) (g : Gen) (hcand : CandAt j p g) :
    ∃ (os : List Nat) (j' p' : Nat) (g' : Gen), sieveInner (fuel + 1) p g p = some (os, p', g') ∧
      CandAt j' p' g' ∧ p < p' ∧
      (∀ x ∈ os, p ≤ x ∧ x < p ∧ Nat.Coprime x 210) ∧
      (∀ x, Nat.Coprime x 210 → p ≤ x → x < p → x ∈ os) ∧
      (∀ x, Nat.Coprime x 210 → p < x → x < p' → False) ∧
      List.Pairwise (· < ·) os := by
  refine ⟨[], j + 1, g.next.1, g.next.2, sieveInner_eqc g (by omega) rfl,
    candAt_next hcand, ?_, ?_, ?_, ?_, List.Pairwise.nil⟩
  · have h1 := (candAt_next hcand).1
    rw [h1, hcand.1]
    exact cop_mono (by omega)
  · intro x hx
    exact absurd hx (List.not_mem_nil x)
  · intro x _ hpx hxc
    omega
  · intro x hco hcx hxp'
    have hnc := cop_nextCop j
    have h1 := (candAt_next hcand).1
    rw [h1] at hxp'
    rw [hcand.1] at hcx
    exact hnc.2.2 x hcx hxp' hco

/-- Consuming a composite at or beyond the current candidate: the loop
emits exactly the skipped-over coprime candidates (everything coprime in
`[p, c)`), in order, and leaves the candidate strictly beyond `c` with
no coprime value skipped. -/
theorem sieveInner_walk :
    ∀ (D j p : Nat) (g : Gen) (c : Nat), CandAt j p g → p ≤ c → c ≤ p + D →
      ∃ (os : List Nat) (j' p' : Nat) (g' : Gen), sieveInner (D + 1) p g c = some (os, p', g') ∧
        CandAt j' p' g' ∧ c < p' ∧
        (∀ x ∈ os, p ≤ x ∧ x < c ∧ Nat.Coprime x 210) ∧
        (∀ x, Nat.Coprime x 210 → p ≤ x → x < c → x ∈ os) ∧
        (∀ x, Nat.Coprime x 210 → c < x → x < p' → False) ∧
        List.Pairwise (· < ·) os := by
  intro D
  induction D with
  | zero =>
    intro j p g c hcand hpc hcd
    have hpc' : p = c := by omega
    subst hpc'
    exact sieveInner_walk_eq 0 j p g hcand
  | succ D ih =>
    intro j p g c hcand hpc hcd
    rcases Nat.eq_or_lt_of_le hpc with heq | hlt
    · subst heq
      exact sieveInner_walk_eq (D + 1) j p g hcand
    · have hg1 : CandAt (j + 1) g.next.1 g.next.2 := candAt_next hcand
      have hstep : p < g.next.1 := by
        rw [hg1.1, hcand.1]
        exact cop_mono (by omega)
      have hnc : NextCop p g.next.1 := by
        rw [hg1.1, hcand.1]
        exact cop_nextCop j
      have hgap01 : ∀ x, Nat.Coprime x 210 → p < x → x < g.next.1 → False :=
        fun x hco h1 h2 => hnc.2.2 x h1 h2 hco
      rcases le_or_lt g.next.1 c with hle | hgt
      · have hp2 : p + 2 ≤ g.next.1 :=
          nextCop_ge_two_more (candAt_coprime hcand) hnc
        have hcd' : c ≤ g.next.1 + D := by omega
        obtain ⟨os, j', p', g', hrun, hcand', hcp', hosmem, hoscomp, hgap,
          hossort⟩ := ih (j + 1) g.next.1 g.next.2 c hg1 hle hcd'
        refine ⟨p :: os, j', p', g', ?_, hcand', hcp', ?_, ?_, hgap, ?_⟩
        · rw [sieveInner_lt g hlt, hrun]
        · intro x hx
          rcases List.mem_cons.mp hx with rfl | hx'
          · exact ⟨le_refl _, hlt, candAt_coprime hcand⟩
          · have h1 := hosmem x hx'
            exact ⟨le_trans (le_of_lt hstep) h1.1, h1.2.1, h1.2.2⟩
        · intro x hco hpx hxc
          rcases Nat.eq_or_lt_of_le hpx with rfl | hpx'
          · exact List.mem_cons_self _ _
          · have hxp₁ : g.next.1 ≤ x := by
              by_contra hcnot
              push_neg at hcnot
              exact hgap01 x hco hpx' hcnot
            exact List.mem_cons_of_mem _ (hoscomp x hco hxp₁ hxc)
        · refine List.pairwise_cons.mpr ⟨?_, hossort⟩
          intro x hx
          exact lt_of_lt_of_le hstep (hosmem x hx).1
      · refine ⟨[p], j + 1, g.next.1, g.next.2, ?_, hg1, hgt, ?_, ?_, ?_, ?_⟩
        · rw [sieveInner_lt g hlt,
            sieveInner_gtc g.next.2 (by omega) (by omega)]
        · intro x hx
          rw [List.mem_singleton.mp hx]
          exact ⟨le_refl _, hlt, candAt_coprime hcand⟩
        · intro x hco hpx hxc
          rcases Nat.eq_or_lt_of_le hpx with rfl | hpx'
          · exact List.mem_singleton_self _
          · exact (hgap01 x hco hpx' (by omega)).elim
        · intro x hco hcx hxp₁
          exact hgap01 x hco (by omega) hxp₁
        · exact List.pairwise_singleton _ _
